import Mathlib

/-!
# Voxel reconstruction: `Reconstructor.cpp`, and the running statistics of `Gaussian.cpp`

A shallow embedding of `nl_uu_science_gmt::Reconstructor`
(`src/P3/src/controllers/Reconstructor.cpp`) and of the frame loop of
`nl_uu_science_gmt::Gaussian::calculateGaussian`
(`src/P2/src/controllers/Gaussian.cpp`), and theorems about them.

Conventions of the embedding.

* `int` values are `Int`; `size_t` values and vector indices are `Nat`.  No value
  computed from the constants of the source (`m_height = 2048`, `m_step = 128`)
  approaches the 32-bit range; the one product of values that come from outside,
  `Size::area()`, is taken with 32-bit wrap-around.
* A `Voxel*` is the index of the slot of `m_voxels` that holds the pointee; every
  slot is filled by its own `new Voxel`, so pointer identity is slot identity.
* `std::vector` is `List`; the OpenMP loops are modelled by the order in which
  their iterations run (`updateInOrder` takes that order as an argument).
* The camera (`projectOnView`, `getSize`, `getForegroundImage`, `getFrame`) and the
  OpenCV primitives `kmeans`, `cvtColor` and `EM::trainEM` are collaborators whose
  code is outside the repository: they are fields of `Camera` or parameters.
* `cluster` and `buildOfflineColorModels` only dereference the pointers held in
  `m_visible_voxels`; they take the list of the pointees, in order.
* The matrices of `calculateGaussian` are taken over the rationals, entry by entry;
  the rounding of 32-bit floats is not modelled. Its four `cv::Mat` variables are
  headers that refer to buffers, and an assignment between two of them shares the
  buffer.
* An abnormal end (failed `assert`, exception of a primitive, access outside a
  vector) is `none`; `buildOfflineColorModels` writes files as it goes, so it returns
  the artifacts written so far together with a flag that is `false` on an abnormal end.
-/

namespace nl_uu_science_gmt

/-! ## Data model -/

/-- Pixel coordinates, `cv::Point`. Its default value is the origin. -/
structure Point where
  x : Int
  y : Int
deriving DecidableEq, Repr

instance : Inhabited Point := ⟨⟨0, 0⟩⟩

/-- Frame size, `cv::Size`. The default value is `0 x 0`. -/
structure Size where
  width : Int
  height : Int
deriving DecidableEq, Repr

instance : Inhabited Size := ⟨⟨0, 0⟩⟩

/-- The value of a 32-bit `int` that holds the mathematical value `n` after
two's-complement wrap-around. -/
def wrapInt32 (n : Int) : Int := (n + 2147483648) % 4294967296 - 2147483648

/-- Area of a size, `cv::Size::area()`: the product `width * height` computed in the
32-bit type `int` of the fields, so a product outside the `int` range wraps. -/
def Size.area (s : Size) : Int := wrapInt32 (s.width * s.height)

/-- Ground-plane coordinates, `cv::Point2f`. The source converts the integer voxel
coordinates to `float`; these conversions are exact, so the integers are kept. -/
structure Point2f where
  x : Int
  y : Int
deriving DecidableEq, Repr

/-- Three 8-bit channels, `cv::Vec3b`. -/
structure Vec3b where
  v0 : Nat
  v1 : Nat
  v2 : Nat
deriving DecidableEq, Repr

/-- A one-channel 8-bit matrix, `cv::Mat` of type `CV_8U`, as its list of rows. -/
abbrev Mat8 := List (List Nat)

/-- An image `cv::Mat` read with `at<T>(point)`: its size and its pixel values. -/
structure Image (α : Type) where
  rows : Nat
  cols : Nat
  px : Point → α

/-- The read `image.at<T>(point)`. -/
def Image.at {α : Type} (m : Image α) (p : Point) : α := m.px p

/-- What `Reconstructor` uses of a `Camera`. -/
structure Camera where
  getSize : Size
  projectOnView : Int → Int → Int → Point
  getForegroundImage : Image Nat
  getFrame : Image Vec3b

/-- The `Voxel` record. -/
structure Voxel where
  x : Int
  y : Int
  z : Int
  camera_projection : List Point
  valid_camera_projection : List Int
deriving DecidableEq, Repr

instance : Inhabited Voxel := ⟨⟨0, 0, 0, [], []⟩⟩

namespace Reconstructor

/-! ## Constructor -/

/-- Value of `m_height` set by the constructor. -/
def m_height : Nat := 2048

/-- Value of `m_step` set by the constructor. -/
def m_step : Nat := 128

/-- The frame-size loop of the constructor, started with the current `m_plane_size`:
while the stored size has positive area every further camera is asserted to have
that size, otherwise the camera's size is stored. `none` is a failed assertion. -/
def planeSizeLoop : List Camera → Size → Option Size
  | [], plane_size => some plane_size
  | cam :: rest, plane_size =>
    if plane_size.area > 0 then
      if plane_size.width = cam.getSize.width ∧ plane_size.height = cam.getSize.height then
        planeSizeLoop rest plane_size
      else none
    else planeSizeLoop rest cam.getSize

/-- The value `m_voxels_amount` for half-extent `H` and step `S`:
`(edge / S) * (edge / S) * (H / S)` with `edge = 2 * H`. -/
def voxelsAmount (H S : Nat) : Nat :=
  (2 * H / S) * (2 * H / S) * (H / S)

/-! ## initialize -/

/-- Iterations of `for (v = lo; v < hi; v += step)`, with fuel `hi - lo`, which is
enough for every `step ≥ 1` (`mem_forRange`). -/
def forRangeAux : Nat → Int → Int → Int → List Int
  | 0, _, _, _ => []
  | fuel + 1, lo, hi, step =>
    if lo < hi then lo :: forRangeAux fuel (lo + step) hi step else []

/-- The values taken by the loop variable of `for (v = lo; v < hi; v += step)`. -/
def forRange (lo hi : Int) (step : Nat) : List Int :=
  forRangeAux (hi - lo).toNat lo hi step

/-- The test `point.x >= 0 && point.x < width && point.y >= 0 && point.y < height`. -/
def inView (plane_size : Size) (point : Point) : Bool :=
  decide (point.x ≥ 0 ∧ point.x < plane_size.width ∧ point.y ≥ 0 ∧ point.y < plane_size.height)

/-- The camera loop of `initialize` from camera index `c` on, over the remaining
cameras: stores the projection and, when it is in view, sets the flag to 1. -/
def projectLoop (plane_size : Size) (x y z : Int) : Nat → List Camera → Voxel → Voxel
  | _, [], voxel => voxel
  | c, cam :: rest, voxel =>
    let point := cam.projectOnView x y z
    let voxel1 := { voxel with camera_projection := voxel.camera_projection.set c point }
    let voxel2 :=
      if inView plane_size point then
        { voxel1 with valid_camera_projection := voxel1.valid_camera_projection.set c 1 }
      else voxel1
    projectLoop plane_size x y z (c + 1) rest voxel2

/-- The voxel created for the lattice point `(x, y, z)`. -/
def newVoxel (cams : List Camera) (plane_size : Size) (x y z : Int) : Voxel :=
  projectLoop plane_size x y z 0 cams
    { x := x, y := y, z := z,
      camera_projection := List.replicate cams.length default,
      valid_camera_projection := List.replicate cams.length 0 }

/-- The constant `plane_x = (xR - xL) / m_step` of `initialize`, with the truncating
division of C. -/
def plane_x (H S : Nat) : Int := ((H : Int) - (-(H : Int))).tdiv S

/-- The constant `plane_y = (yR - yL) / m_step` of `initialize`. -/
def plane_y (H S : Nat) : Int := ((H : Int) - (-(H : Int))).tdiv S

/-- The voxel index `p = zp * plane + yp * plane_x + xp` of `initialize`, with
`plane = plane_y * plane_x`, `zp = (z - zL) / m_step`, `yp = (y - yL) / m_step` and
`xp = (x - xL) / m_step`. -/
def voxelIndex (H S : Nat) (x y z : Int) : Int :=
  let xL : Int := -(H : Int)
  let yL : Int := -(H : Int)
  let zL : Int := 0
  let plane := plane_y H S * plane_x H S
  let zp := (z - zL).tdiv S
  let yp := (y - yL).tdiv S
  let xp := (x - xL).tdiv S
  zp * plane + yp * plane_x H S + xp

/-- The write `m_voxels[p] = voxel`. A write outside the vector does not happen in
`initialize`; the model leaves the vector unchanged there. -/
def writeVoxel (voxels : List (Option Voxel)) (p : Int) (voxel : Voxel) : List (Option Voxel) :=
  if 0 ≤ p then voxels.set p.toNat (some voxel) else voxels

/-- The function `Reconstructor::initialize` (a reserved word in Lean, hence the
longer name) for half-extent `H`, step `S` and `amount` slots: the vector `m_voxels`
after the three nested loops (z outermost, then y, then x), starting from `amount`
null slots. -/
def initializeVoxels (cams : List Camera) (plane_size : Size) (H S amount : Nat) :
    List (Option Voxel) :=
  let xL : Int := -(H : Int)
  let xR : Int := H
  let yL : Int := -(H : Int)
  let yR : Int := H
  let zL : Int := 0
  let zR : Int := H
  (forRange zL zR S).foldl (fun voxels z =>
    (forRange yL yR S).foldl (fun voxels y =>
      (forRange xL xR S).foldl (fun voxels x =>
        writeVoxel voxels (voxelIndex H S x y z) (newVoxel cams plane_size x y z))
        voxels) voxels) (List.replicate amount none)

/-- The lattice points visited by the loops of `initialize`. -/
def onLattice (H S : Nat) (x y z : Int) : Prop :=
  x ∈ forRange (-(H : Int)) H S ∧ y ∈ forRange (-(H : Int)) H S ∧ z ∈ forRange 0 H S

/-- The lattice points in the order in which the loops of `initialize` visit them. -/
def latticePoints (H S : Nat) : List (Int × Int × Int) :=
  (forRange 0 H S).flatMap (fun z =>
    (forRange (-(H : Int)) H S).flatMap (fun y =>
      (forRange (-(H : Int)) H S).map (fun x => (x, y, z))))

/-- The constructor `Reconstructor::Reconstructor`: the plane size found by the
frame-size loop and the voxel vector built by `initialize`; `none` when the
assertion fails. -/
def Reconstructor (cams : List Camera) : Option (Size × List (Option Voxel)) :=
  match planeSizeLoop cams default with
  | none => none
  | some plane_size =>
    some (plane_size, initializeVoxels cams plane_size m_height m_step (voxelsAmount m_height m_step))

/-! ## update -/

/-- The camera loop of `update` from camera index `c` on: `camera_counter` after
visiting the remaining cameras. -/
def cameraCounter (voxel : Voxel) : Nat → List Camera → Nat → Nat
  | _, [], camera_counter => camera_counter
  | c, cam :: rest, camera_counter =>
    if voxel.valid_camera_projection.getD c 0 ≠ 0 then
      let point := voxel.camera_projection.getD c default
      if cam.getForegroundImage.at point = 255 then
        cameraCounter voxel (c + 1) rest (camera_counter + 1)
      else cameraCounter voxel (c + 1) rest camera_counter
    else cameraCounter voxel (c + 1) rest camera_counter

/-- The body of the voxel loop of `update` for voxel index `v`: the voxel is
appended to `visible_voxels` when its counter equals the number of cameras. -/
def updateStep (cams : List Camera) (voxels : List Voxel) (visible_voxels : List Nat)
    (v : Nat) : List Nat :=
  match voxels[v]? with
  | none => visible_voxels
  | some voxel =>
    if cameraCounter voxel 0 cams 0 = cams.length then visible_voxels ++ [v]
    else visible_voxels

/-- The voxel loop of `update` with its iterations run in the given order. -/
def updateInOrder (cams : List Camera) (voxels : List Voxel) (order : List Nat) : List Nat :=
  order.foldl (updateStep cams voxels) []

/-- The visible set computed by `Reconstructor::update` (sequential execution: voxel
indices `0 .. m_voxels_amount - 1` in increasing order). The list `voxels` is the
content of `m_voxels`, whose size is `m_voxels_amount`. -/
def update (cams : List Camera) (voxels : List Voxel) : List Nat :=
  updateInOrder cams voxels (List.range voxels.length)

/-- Camera `c` agrees on a voxel, in the words of the specification: the voxel's
projection on `c` is flagged valid and the mask of `c` is 255 at the projected pixel. -/
def agreeing (voxel : Voxel) (ccam : Nat × Camera) : Bool :=
  decide (voxel.valid_camera_projection.getD ccam.1 0 ≠ 0) &&
    decide (ccam.2.getForegroundImage.at (voxel.camera_projection.getD ccam.1 default) = 255)

/-- The number of cameras that agree on a voxel, in the words of the specification. -/
def agreeCount (cams : List Camera) (voxel : Voxel) : Nat :=
  (cams.enum.filter (agreeing voxel)).length

/-- The voxel in slot `v` exists and all cameras agree on it. -/
def fullAgreement (cams : List Camera) (voxels : List Voxel) (v : Nat) : Prop :=
  ∃ voxel, voxels[v]? = some voxel ∧ agreeCount cams voxel = cams.length

/-! ## cluster -/

/-- The primitive `cv::kmeans` as `cluster` calls it: from the points, the number of
clusters `K` and the number of attempts it gives the labels and the centers; `none`
is an exception raised by the primitive. The termination criteria and the flags are
the constants of the call. -/
abbrev KMeans := List Point2f → Nat → Nat → Option (List Int × List Point2f)

/-- The members that `cluster` assigns. -/
structure Clustering where
  m_groundCoordinates : List Point2f
  m_clusterLabels : List Int
  m_centers : List Point2f
  m_clusters : List (List Nat)
deriving DecidableEq, Repr

/-- The last loop of `cluster` over the remaining indices `i`:
`clusters[m_clusterLabels[i]].push_back(i)`. An access outside a vector is `none`. -/
def clusterLoop (m_clusterLabels : List Int) : List Nat → List (List Nat) → Option (List (List Nat))
  | [], clusters => some clusters
  | i :: rest, clusters =>
    match m_clusterLabels[i]? with
    | none => none
    | some label =>
      if 0 ≤ label ∧ label.toNat < clusters.length then
        clusterLoop m_clusterLabels rest (List.modify (fun members => members ++ [i]) label.toNat clusters)
      else none

/-- The function `Reconstructor::cluster` on the visible voxels (the pointees of
`m_visible_voxels`, in order). -/
def cluster (kmeans : KMeans) (m_visible_voxels : List Voxel) : Option Clustering :=
  let m_groundCoordinates := m_visible_voxels.map (fun voxel => Point2f.mk voxel.x voxel.y)
  let K := 4
  let reruns := 10
  match kmeans m_groundCoordinates K reruns with
  | none => none
  | some (bestLabels, centers) =>
    match clusterLoop bestLabels (List.range m_visible_voxels.length) (List.replicate K []) with
    | none => none
    | some clusters =>
      some { m_groundCoordinates := m_groundCoordinates, m_clusterLabels := bestLabels,
             m_centers := centers, m_clusters := clusters }

/-! ## buildOfflineColorModels -/

/-- The primitive `EM::trainEM` followed by `getMeans` and `getCovs`: from the sample
matrix (one sample per row) the fitted means and covariances, of a matrix type `μ`
left abstract; `none` is an exception raised by the primitive. -/
abbrev TrainEM (μ : Type) := Mat8 → Option (μ × List μ)

/-- The two files written for cluster `k`: `means{k}.xml` holding the means and
`covs{k}.xml` holding the covariances. -/
structure Artifact (μ : Type) where
  k : Nat
  means : μ
  covs : List μ
deriving DecidableEq, Repr

/-- The transposed matrix `m.t()`: a matrix of `n` rows and `c` columns becomes one
of `c` rows and `n` columns; the empty matrix stays empty. -/
def transposed (m : Mat8) : Mat8 :=
  (List.range ((m.head?.map List.length).getD 0)).map (fun j => m.map (fun row => row.getD j 0))

/-- The member loop of `buildOfflineColorModels` over the remaining members of a
cluster: the map `points` from pixel to colour, as the list of its entries in the
order of insertion (the iteration order of `std::unordered_map` is unspecified). A
member with a valid projection on `camera` inserts the colour of its pixel unless the
pixel is already a key. An access outside a vector is `none`. -/
def collectPoints (current_frame : Image Vec3b) (m_visible_voxels : List Voxel) (camera : Nat) :
    List Nat → List (Point × Vec3b) → Option (List (Point × Vec3b))
  | [], points => some points
  | member :: rest, points =>
    match m_visible_voxels[member]? with
    | none => none
    | some voxel =>
      match voxel.valid_camera_projection[camera]? with
      | none => none
      | some flag =>
        if flag ≠ 0 then
          match voxel.camera_projection[camera]? with
          | none => none
          | some point =>
            let color := current_frame.at point
            if points.any (fun entry => decide (entry.1 = point)) then
              collectPoints current_frame m_visible_voxels camera rest points
            else
              collectPoints current_frame m_visible_voxels camera rest (points ++ [(point, color)])
        else collectPoints current_frame m_visible_voxels camera rest points

/-- The matrix `colors` after the loop over `points`: each entry appends the row of
its three channels (`colors.push_back(color_mat.t())`). -/
def colorRows (points : List (Point × Vec3b)) : Mat8 :=
  points.map (fun entry => [entry.2.v0, entry.2.v1, entry.2.v2])

/-- The matrix handed to `trainEM` for a cluster: `colors` after `colors = colors.t()`. -/
def sampleMatrix (current_frame : Image Vec3b) (m_visible_voxels : List Voxel) (camera : Nat)
    (members : List Nat) : Option Mat8 :=
  match collectPoints current_frame m_visible_voxels camera members [] with
  | none => none
  | some points => some (transposed (colorRows points))

/-- The cluster loop of `buildOfflineColorModels` from cluster index `k` on: the
artifacts written so far and whether the loop ran to its end. An exception of
`trainEM` or an access outside a vector ends the loop at once. -/
def buildLoop {μ : Type} (trainEM : TrainEM μ) (current_frame : Image Vec3b)
    (m_visible_voxels : List Voxel) (camera : Nat) :
    Nat → List (List Nat) → List (Artifact μ) → List (Artifact μ) × Bool
  | _, [], written => (written, true)
  | k, members :: rest, written =>
    match sampleMatrix current_frame m_visible_voxels camera members with
    | none => (written, false)
    | some colors =>
      match trainEM colors with
      | none => (written, false)
      | some (means, covs) =>
        buildLoop trainEM current_frame m_visible_voxels camera (k + 1) rest
          (written ++ [{ k := k, means := means, covs := covs }])

/-- The function `Reconstructor::buildOfflineColorModels`: the frame of camera 3 is
converted pixel by pixel with `cvtColor`, then every cluster is sampled, fitted and
written. The result is the list of artifacts written and whether the function ran to
its end. -/
def buildOfflineColorModels {μ : Type} (cvtColor : Vec3b → Vec3b) (trainEM : TrainEM μ)
    (m_cameras : List Camera) (m_visible_voxels : List Voxel) (m_clusters : List (List Nat)) :
    List (Artifact μ) × Bool :=
  let camera := 3
  match m_cameras[camera]? with
  | none => ([], false)
  | some cam =>
    let current_frame : Image Vec3b :=
      { rows := cam.getFrame.rows, cols := cam.getFrame.cols,
        px := fun point => cvtColor (cam.getFrame.at point) }
    buildLoop trainEM current_frame m_visible_voxels camera 0 m_clusters []

/-- The pixels of the valid projections on `camera` of the members of a cluster, in
the words of the specification. -/
def validPixels (m_visible_voxels : List Voxel) (camera : Nat) (members : List Nat) : List Point :=
  members.filterMap (fun member =>
    match m_visible_voxels[member]? with
    | none => none
    | some voxel =>
      if voxel.valid_camera_projection.getD camera 0 ≠ 0 then voxel.camera_projection[camera]?
      else none)

/-- A cluster without valid pixel on `camera`, in the words of the specification: no
member voxel has a valid projection (a cluster without members included). -/
def noValidPixel (m_visible_voxels : List Voxel) (camera : Nat) (members : List Nat) : Prop :=
  ∀ member ∈ members, ∃ voxel, m_visible_voxels[member]? = some voxel ∧
    voxel.valid_camera_projection[camera]? = some 0

/-! ## Members and reads of `update`, `cluster` and `initialize` -/

/-- The call `v.clear()` on a vector. -/
def vectorClear {α : Type} (_v : List α) : List α := []

/-- The member `m_visible_voxels` after lines 159 to 188 of `update`, from its previous
content: it is cleared, the voxel loop fills the local `visible_voxels` (its
iterations run in the given order), and the local vector is inserted at the end. -/
def updateVisibleVoxels (cams : List Camera) (voxels : List Voxel) (order : List Nat)
    (m_visible_voxels : List Nat) : List Nat :=
  let cleared := vectorClear m_visible_voxels
  let visible_voxels := updateInOrder cams voxels order
  cleared ++ visible_voxels

/-- The reads `getForegroundImage().at<uchar>(point)` that the camera loop of `update`
performs from camera index `c` on, as pairs of camera index and pixel, in order. The
loop reads the mask of a camera exactly when the flag of the voxel for it is not 0. -/
def maskReads (voxel : Voxel) : Nat → List Camera → List (Nat × Point)
  | _, [] => []
  | c, _ :: rest =>
    if voxel.valid_camera_projection.getD c 0 ≠ 0 then
      (c, voxel.camera_projection.getD c default) :: maskReads voxel (c + 1) rest
    else maskReads voxel (c + 1) rest

/-- A pixel lies inside an image: `0 <= x < cols` and `0 <= y < rows`. -/
def pixelInBounds {α : Type} (m : Image α) (p : Point) : Prop :=
  0 ≤ p.x ∧ p.x < m.cols ∧ 0 ≤ p.y ∧ p.y < m.rows

/-- The vector `m_groundCoordinates` built by the first loop of `cluster`:
entry `i` is `Point2f(m_visible_voxels[i]->x, m_visible_voxels[i]->y)`. -/
def groundCoordinates (m_visible_voxels : List Voxel) : List Point2f :=
  m_visible_voxels.map (fun voxel => Point2f.mk voxel.x voxel.y)

/-- Every slot of `m_voxels` holds a voxel: the vector is the list of these voxels. -/
def allAssigned (m_voxels : List (Option Voxel)) (voxels : List Voxel) : Prop :=
  m_voxels = voxels.map some

end Reconstructor

/-! ## Gaussian::calculateGaussian -/

namespace Gaussian

/-- A `CV_32FC3` matrix over exact rational arithmetic: the value of every entry
(pixel and channel), entries being numbered in some fixed order. All operations of
`calculateGaussian` on matrices act entry by entry. -/
abbrev MatQ := Nat → ℚ

/-- The matrix `Mat(m_height, m_width, CV_32FC3, Scalar(0, 0, 0))`. -/
def zeroMat : MatQ := fun _ => 0

/-- The four matrix variables of `calculateGaussian`. A `cv::Mat` is a header that
refers to a buffer: `buffers` gives the content of every buffer, and each variable
holds the number of the buffer it refers to. -/
structure Mats where
  buffers : Nat → MatQ
  running_mean : Nat
  running_std : Nat
  new_mean : Nat
  new_std : Nat

/-- The assignment of a matrix expression to a variable that refers to `buffer`: the
destination already has the size and type of the value, so no buffer is allocated and
the value is written into `buffer`, for every variable that refers to it. -/
def Mats.assign (m : Mats) (buffer : Nat) (value : MatQ) : Mats :=
  { m with buffers := fun b => if b = buffer then value else m.buffers b }

/-- The state before the frame loop: four zero matrices with a buffer each. -/
def initialMats : Mats :=
  { buffers := fun _ => zeroMat, running_mean := 0, running_std := 1, new_mean := 2,
    new_std := 3 }

/-- The body of the frame loop of `calculateGaussian` for frame number `i`:
`new_mean = running_mean + (hsv_frame - running_mean) / (i + 1)`, then
`new_std = running_std + (hsv_frame - running_mean).mul(hsv_frame - new_mean)`, then
`running_mean = new_mean` and `running_std = new_std`. The last two assignments copy
headers: afterwards `running_mean` refers to the buffer of `new_mean`, and
`running_std` to the buffer of `new_std`. -/
def frameStep (i : Nat) (m : Mats) (hsv_frame : MatQ) : Mats :=
  let mean_value : MatQ := fun e =>
    m.buffers m.running_mean e
      + (hsv_frame e - m.buffers m.running_mean e) / (((i + 1 : Nat) : ℚ))
  let m1 := m.assign m.new_mean mean_value
  let std_value : MatQ := fun e =>
    m1.buffers m1.running_std e
      + (hsv_frame e - m1.buffers m1.running_mean e) * (hsv_frame e - m1.buffers m1.new_mean e)
  let m2 := m1.assign m1.new_std std_value
  { m2 with running_mean := m2.new_mean, running_std := m2.new_std }

/-- The frame loop of `calculateGaussian` from frame number `i` on, over the
remaining frames. -/
def frameLoop : Nat → List MatQ → Mats → Mats
  | _, [], m => m
  | i, hsv_frame :: rest, m => frameLoop (i + 1) rest (frameStep i m hsv_frame)

/-- The pair `(running_mean, running_std)` after the frame loop over the
`m_frame_count` frames of the video. -/
def runningStatistics (frames : List MatQ) : MatQ × MatQ :=
  let m := frameLoop 0 frames initialMats
  (m.buffers m.running_mean, m.buffers m.running_std)

/-- The divisor `m_frame_count - 1` of `calculateGaussian`. -/
def divisor (frames : List MatQ) : ℚ := (((frames.length : Int) - 1 : Int) : ℚ)

/-- The function `Gaussian::calculateGaussian` over exact arithmetic: `running_mean`
(before its conversion to 8 bits) and `running_std / (m_frame_count - 1)`, the matrix
whose entrywise square root is returned. -/
def calculateGaussian (frames : List MatQ) : MatQ × MatQ :=
  let running := runningStatistics frames
  (running.1, fun e => running.2 e / divisor frames)

/-- Welford's recurrence in the words of the specification, on plain values: the new
mean is `mean + (x - mean) / (i + 1)`, and the second statistic grows by
`(x - mean) * (x - new mean)` with the mean of before the step in the first factor. -/
def welfordStep (i : Nat) (running : MatQ × MatQ) (hsv_frame : MatQ) : MatQ × MatQ :=
  let new_mean : MatQ := fun e =>
    running.1 e + (hsv_frame e - running.1 e) / (((i + 1 : Nat) : ℚ))
  let new_std : MatQ := fun e =>
    running.2 e + (hsv_frame e - running.1 e) * (hsv_frame e - new_mean e)
  (new_mean, new_std)

/-- Welford's recurrence over the remaining frames, from frame number `i` on. -/
def welfordLoop : Nat → List MatQ → MatQ × MatQ → MatQ × MatQ
  | _, [], running => running
  | i, hsv_frame :: rest, running => welfordLoop (i + 1) rest (welfordStep i running hsv_frame)

/-- The two statistics of Welford's recurrence after all frames. -/
def welfordStatistics (frames : List MatQ) : MatQ × MatQ :=
  welfordLoop 0 frames (zeroMat, zeroMat)

/-- The values of one entry in the frames `f_1 .. f_n`. -/
def samples (frames : List MatQ) (e : Nat) : List ℚ := frames.map (fun frame => frame e)

/-- The arithmetic mean `(f_1 + ... + f_n) / n`. -/
def mean (xs : List ℚ) : ℚ := xs.sum / (xs.length : ℚ)

/-- The sum of the squared deviations from `m`. -/
def sumSquares (xs : List ℚ) (m : ℚ) : ℚ := (xs.map (fun x => (x - m) ^ 2)).sum

/-- The unbiased sample variance: the squared deviations from the mean, summed and
divided by `n - 1`. -/
def sampleVariance (xs : List ℚ) : ℚ := sumSquares xs (mean xs) / ((xs.length : ℚ) - 1)

end Gaussian

namespace Reconstructor

/-! ## Concrete inputs -/

/-- A k-means primitive that, like `cv::kmeans`, rejects fewer points than clusters
and otherwise puts every point in cluster 0. -/
def kmeansChecked : KMeans := fun points K _ =>
  if points.length < K then none
  else some (points.map (fun _ => 0), List.replicate K ⟨0, 0⟩)

/-- A k-means primitive that accepts every input and labels the points 0, 1, 2, 3, 0, ... -/
def kmeansRoundRobin : KMeans := fun points K _ =>
  some ((List.range points.length).map (fun i => ((i % 4 : Nat) : Int)), List.replicate K ⟨0, 0⟩)

/-- A mixture fit that accepts every sample matrix, the empty one included, and
returns the matrix itself as the means. -/
def trainAny : TrainEM Mat8 := fun samples => some (samples, [])

/-- A mixture fit that, like `EM::trainEM` (which asserts that the samples are not
empty), rejects an empty sample matrix. -/
def trainNonEmpty : TrainEM Mat8 := fun samples =>
  if samples.isEmpty then none else some (samples, [])


/-- A mask of the given size that has the value `val` at every pixel. -/
def constMask (rows cols val : Nat) : Image Nat := ⟨rows, cols, fun _ => val⟩

/-- A frame of the given size with one colour at every pixel. -/
def constFrame (rows cols : Nat) (col : Vec3b) : Image Vec3b := ⟨rows, cols, fun _ => col⟩

/-- A camera with a `w x h` frame that projects every point to pixel `(px, py)` and
whose mask has the value `val` everywhere. -/
def fixedCamera (w h px py : Int) (val : Nat) : Camera :=
  { getSize := ⟨w, h⟩,
    projectOnView := fun _ _ _ => ⟨px, py⟩,
    getForegroundImage := constMask h.toNat w.toNat val,
    getFrame := constFrame h.toNat w.toNat ⟨10, 20, 30⟩ }

/-- A 644 x 486 camera that projects every point to pixel `(3, 4)`, mask 255. -/
def viewCamera : Camera := fixedCamera 644 486 3 4 255

/-- The voxel that `initialize` creates at `(-1, -1, 0)` for the single `viewCamera`. -/
def cornerVoxel : Voxel := ⟨-1, -1, 0, [⟨3, 4⟩], [1]⟩

/-- Four 644 x 486 cameras; every one projects every point to pixel `(3, 4)` and shows
the colour `(10, 20, 30)` at every pixel of its frame. -/
def fourCameras : List Camera := [viewCamera, viewCamera, viewCamera, viewCamera]

/-- A voxel as `initialize` creates it for `fourCameras`: projected to `(3, 4)` and
flagged valid on every camera. -/
def seenVoxel (x y z : Int) : Voxel :=
  ⟨x, y, z, [⟨3, 4⟩, ⟨3, 4⟩, ⟨3, 4⟩, ⟨3, 4⟩], [1, 1, 1, 1]⟩

/-- A 644 x 486 camera whose frame shows the colour `(x mod 256, y mod 256, 7)` at
pixel `(x, y)`. -/
def gradientCamera : Camera :=
  { getSize := ⟨644, 486⟩,
    projectOnView := fun _ _ _ => ⟨3, 4⟩,
    getForegroundImage := constMask 486 644 255,
    getFrame := ⟨486, 644, fun point => ⟨point.x.toNat % 256, point.y.toNat % 256, 7⟩⟩ }

/-- Four cameras, the reference camera (index 3) being `gradientCamera`. -/
def gradientCameras : List Camera := [viewCamera, viewCamera, viewCamera, gradientCamera]

/-- Two visible voxels whose projections on the reference camera are the valid
pixels `(3, 4)` and `(5, 6)`. -/
def twoPixelVoxels : List Voxel :=
  [⟨0, 0, 0, [⟨3, 4⟩, ⟨3, 4⟩, ⟨3, 4⟩, ⟨3, 4⟩], [1, 1, 1, 1]⟩,
   ⟨128, 0, 0, [⟨3, 4⟩, ⟨3, 4⟩, ⟨3, 4⟩, ⟨5, 6⟩], [1, 1, 1, 1]⟩]

/-- Four 644 x 486 cameras whose masks are off (value 0) at every pixel. -/
def darkCameras : List Camera :=
  [fixedCamera 644 486 3 4 0, fixedCamera 644 486 3 4 0, fixedCamera 644 486 3 4 0,
   fixedCamera 644 486 3 4 0]

/-- Three frames of a video whose entries all have the values 1, 2 and 6. -/
def threeFrames : List Gaussian.MatQ := [fun _ => 1, fun _ => 2, fun _ => 6]

/-- A voxel at the origin without projection tables (no camera configured). -/
def bareVoxel : Voxel := ⟨0, 0, 0, [], []⟩

/-! # Theorems -/

/-! ## The camera counter and the visible set -/

/-- The counter loop adds to its start value the number of agreeing cameras among
the remaining ones. -/
theorem cameraCounter_eq (voxel : Voxel) (rest : List Camera) (c k : Nat) :
    cameraCounter voxel c rest k = k + ((rest.enumFrom c).filter (agreeing voxel)).length := by
  induction rest generalizing c k with
  | nil => simp [cameraCounter]
  | cons cam rest ih =>
    rw [cameraCounter, List.enumFrom_cons, List.filter_cons]
    by_cases hv : voxel.valid_camera_projection.getD c 0 = 0
    · have ha : agreeing voxel (c, cam) = false := by simp [agreeing, -List.getD_eq_getElem?_getD, hv]
      rw [ha]
      simp only [hv, ne_eq, not_true_eq_false, if_false, Bool.false_eq_true]
      exact ih _ _
    · by_cases hm : cam.getForegroundImage.at (voxel.camera_projection.getD c default) = 255
      · have ha : agreeing voxel (c, cam) = true := by simp [agreeing, -List.getD_eq_getElem?_getD, hv, hm]
        rw [ha]
        simp only [hv, hm, ne_eq, not_false_eq_true, if_true, List.length_cons]
        rw [ih]
        omega
      · have ha : agreeing voxel (c, cam) = false := by simp [agreeing, -List.getD_eq_getElem?_getD, hm]
        rw [ha]
        simp only [hv, hm, ne_eq, not_false_eq_true, if_true, if_false, Bool.false_eq_true]
        exact ih _ _

/-- The counter of `update` is the number of agreeing cameras. -/
theorem cameraCounter_eq_agreeCount (cams : List Camera) (voxel : Voxel) :
    cameraCounter voxel 0 cams 0 = agreeCount cams voxel := by
  simp [cameraCounter_eq, agreeCount, List.enum]

/-- All cameras agree exactly when each single camera does. -/
theorem agreeCount_eq_length_iff (cams : List Camera) (voxel : Voxel) :
    agreeCount cams voxel = cams.length ↔
      ∀ c cam, cams[c]? = some cam → agreeing voxel (c, cam) = true := by
  unfold agreeCount
  rw [← List.enum_length (l := cams), List.filter_length_eq_length]
  constructor
  · intro h c cam hc
    exact h (c, cam) (List.mk_mem_enum_iff_getElem?.2 hc)
  · rintro h ⟨c, cam⟩ hmem
    exact h c cam (List.mk_mem_enum_iff_getElem?.1 hmem)

/-- One loop iteration appends the voxel index exactly when there is full agreement. -/
theorem updateStep_eq (cams : List Camera) (voxels : List Voxel) (acc : List Nat) (v : Nat)
    [Decidable (fullAgreement cams voxels v)] :
    updateStep cams voxels acc v = acc ++ (if fullAgreement cams voxels v then [v] else []) := by
  by_cases h : fullAgreement cams voxels v
  · rw [if_pos h]
    obtain ⟨voxel, hv, hc⟩ := h
    simp [updateStep, hv, cameraCounter_eq_agreeCount, hc]
  · rw [if_neg h]
    unfold updateStep
    cases hv : voxels[v]? with
    | none => simp
    | some voxel =>
      have hne : agreeCount cams voxel ≠ cams.length := fun hc => h ⟨voxel, hv, hc⟩
      simp [cameraCounter_eq_agreeCount, hne]

/-- The loop of `update`, run in any order, keeps the indices with full agreement,
in the order in which they are visited. -/
theorem updateInOrder_eq_filter (cams : List Camera) (voxels : List Voxel) (order : List Nat)
    [DecidablePred (fullAgreement cams voxels)] :
    updateInOrder cams voxels order
      = order.filter (fun v => decide (fullAgreement cams voxels v)) := by
  unfold updateInOrder
  suffices h : ∀ acc, order.foldl (updateStep cams voxels) acc
      = acc ++ order.filter (fun v => decide (fullAgreement cams voxels v)) by
    simpa using h []
  induction order with
  | nil => simp
  | cons v order ih =>
    intro acc
    rw [List.foldl_cons, ih, updateStep_eq, List.filter_cons]
    by_cases h : fullAgreement cams voxels v <;> simp [h]

/-- Membership in the visible set, for any processing order. -/
theorem mem_updateInOrder (cams : List Camera) (voxels : List Voxel) (order : List Nat) (v : Nat) :
    v ∈ updateInOrder cams voxels order ↔ v ∈ order ∧ fullAgreement cams voxels v := by
  classical
  rw [updateInOrder_eq_filter]
  simp

/-- Membership in the visible set of `update`. -/
theorem mem_update (cams : List Camera) (voxels : List Voxel) (v : Nat) :
    v ∈ update cams voxels ↔ fullAgreement cams voxels v := by
  unfold update
  rw [mem_updateInOrder, List.mem_range]
  constructor
  · exact fun h => h.2
  · rintro ⟨voxel, hv, hc⟩
    refine ⟨?_, voxel, hv, hc⟩
    by_contra hlt
    rw [List.getElem?_eq_none (by omega)] at hv
    cases hv

/-- The visible set of `update` has no repetition. -/
theorem update_nodup (cams : List Camera) (voxels : List Voxel) :
    (update cams voxels).Nodup := by
  classical
  unfold update
  rw [updateInOrder_eq_filter]
  exact (List.nodup_range _).filter _

/-- C1. A voxel index is in the visible set of `update` if and only if the number of
cameras on which its projection is flagged valid and whose mask is 255 at the
projected pixel equals the number of cameras; a voxel for which some camera's mask
is not 255 at the projected pixel is not in the visible set; and when exactly one
voxel index satisfies the condition the visible set is that single index. -/
theorem update_visible_iff_full_agreement (cams : List Camera) (voxels : List Voxel) :
    (∀ v, v ∈ update cams voxels ↔
        ∃ voxel, voxels[v]? = some voxel ∧ agreeCount cams voxel = cams.length) ∧
    (∀ (v : Nat) (voxel : Voxel) (c : Nat) (cam : Camera),
        voxels[v]? = some voxel → cams[c]? = some cam →
        cam.getForegroundImage.at (voxel.camera_projection.getD c default) ≠ 255 →
        v ∉ update cams voxels) ∧
    (∀ v, (∀ w, (∃ voxel, voxels[w]? = some voxel ∧ agreeCount cams voxel = cams.length)
              ↔ w = v) →
        update cams voxels = [v]) := by
  refine ⟨fun v => mem_update cams voxels v, ?_, ?_⟩
  · intro v voxel c cam hv hc hne hmem
    obtain ⟨voxel2, hv2, hcount⟩ := (mem_update cams voxels v).1 hmem
    rw [hv] at hv2
    cases hv2
    have := (agreeCount_eq_length_iff cams voxel).1 hcount c cam hc
    simp [agreeing, -List.getD_eq_getElem?_getD, hne] at this
  · intro v huniq
    apply List.perm_singleton.1
    rw [List.perm_ext_iff_of_nodup (update_nodup cams voxels) (List.nodup_singleton v)]
    intro w
    rw [mem_update, List.mem_singleton]
    exact huniq w

/-- The scenario of the specification on a grid of three voxels and four cameras whose
masks are 255 everywhere: the first voxel is flagged invalid on camera 2, the second
is valid on every camera, the third is flagged invalid on camera 0; `update` returns
exactly the second voxel. -/
theorem update_single_visible :
    update fourCameras
      [⟨0, 0, 0, [⟨3, 4⟩, ⟨3, 4⟩, ⟨700, 4⟩, ⟨3, 4⟩], [1, 1, 0, 1]⟩, seenVoxel 128 0 0,
       ⟨256, 0, 0, [⟨-1, 4⟩, ⟨3, 4⟩, ⟨3, 4⟩, ⟨3, 4⟩], [0, 1, 1, 1]⟩] = [1] := by
  decide

/-- C3. For every processing order that is a permutation of the voxel indices
`0 .. m_voxels_amount - 1`, the accumulated visible sequence is a permutation of the
one obtained in increasing index order, it has no repetition, and every index of the
sequential result occurs in it exactly once. -/
theorem update_order_independent (cams : List Camera) (voxels : List Voxel) (order : List Nat)
    (hperm : order.Perm (List.range voxels.length)) :
    (updateInOrder cams voxels order).Perm (update cams voxels) ∧
    (updateInOrder cams voxels order).Nodup ∧
    (∀ v, v ∈ update cams voxels → (updateInOrder cams voxels order).count v = 1) := by
  classical
  have hp : (updateInOrder cams voxels order).Perm (update cams voxels) := by
    unfold update
    rw [updateInOrder_eq_filter, updateInOrder_eq_filter]
    exact hperm.filter _
  have hn : (updateInOrder cams voxels order).Nodup :=
    (hp.nodup_iff).2 (update_nodup cams voxels)
  refine ⟨hp, hn, ?_⟩
  intro v hv
  exact List.count_eq_one_of_mem hn (hp.mem_iff.2 hv)

/-- C3, at a concrete input: two voxels, no camera, processed in the order 1, 0. -/
theorem update_order_independent_witness :
    [1, 0].Perm (List.range [bareVoxel, bareVoxel].length) ∧
    ((updateInOrder [] [bareVoxel, bareVoxel] [1, 0]).Perm (update [] [bareVoxel, bareVoxel]) ∧
      (updateInOrder [] [bareVoxel, bareVoxel] [1, 0]).Nodup ∧
      (∀ v, v ∈ update [] [bareVoxel, bareVoxel] →
        (updateInOrder [] [bareVoxel, bareVoxel] [1, 0]).count v = 1)) :=
  ⟨by decide, update_order_independent [] [bareVoxel, bareVoxel] [1, 0] (by decide)⟩

/-- C6 (amended). A voxel whose projection is flagged invalid for some configured
camera is not in the visible set of `update`. -/
theorem update_excludes_invalid_projection (cams : List Camera) (voxels : List Voxel)
    (v : Nat) (voxel : Voxel) (c : Nat)
    (hv : voxels[v]? = some voxel) (hc : c < cams.length)
    (hinvalid : voxel.valid_camera_projection.getD c 0 = 0) :
    v ∉ update cams voxels := by
  intro hmem
  obtain ⟨voxel2, hv2, hcount⟩ := (mem_update cams voxels v).1 hmem
  rw [hv] at hv2
  cases hv2
  have hcam : cams[c]? = some cams[c] := List.getElem?_eq_getElem hc
  have := (agreeCount_eq_length_iff cams voxel).1 hcount c cams[c] hcam
  simp [agreeing, -List.getD_eq_getElem?_getD, hinvalid] at this

/-- C6 (amended), at a concrete input: one camera whose mask is 255 everywhere and one
voxel whose projection on it is flagged invalid. -/
theorem update_excludes_invalid_projection_witness :
    ([⟨0, 0, 0, [⟨700, 3⟩], [0]⟩] : List Voxel)[0]? = some ⟨0, 0, 0, [⟨700, 3⟩], [0]⟩ ∧
    0 < [fixedCamera 644 486 700 3 255].length ∧
    (⟨0, 0, 0, [⟨700, 3⟩], [0]⟩ : Voxel).valid_camera_projection.getD 0 0 = 0 ∧
    0 ∉ update [fixedCamera 644 486 700 3 255] [⟨0, 0, 0, [⟨700, 3⟩], [0]⟩] :=
  ⟨rfl, by decide, rfl,
    update_excludes_invalid_projection [fixedCamera 644 486 700 3 255]
      [⟨0, 0, 0, [⟨700, 3⟩], [0]⟩] 0 ⟨0, 0, 0, [⟨700, 3⟩], [0]⟩ 0 rfl (by decide) rfl⟩

/-- With zero cameras configured every voxel of the grid is in the visible set. -/
theorem update_zero_cameras (voxels : List Voxel) :
    update [] voxels = List.range voxels.length := by
  classical
  unfold update
  rw [updateInOrder_eq_filter, List.filter_eq_self]
  intro v hv
  have hlt : v < voxels.length := List.mem_range.1 hv
  simp only [decide_eq_true_eq]
  exact ⟨voxels[v], List.getElem?_eq_getElem hlt, rfl⟩

/-- C6, counterexample: with zero cameras configured the counter 0 equals the number
of cameras, and the voxel of a one-voxel grid is in the visible set. -/
theorem update_zero_cameras_keeps_voxel :
    update [] [bareVoxel] = [0] ∧ ¬ (∀ (voxels : List Voxel) (v : Nat), v ∉ update [] voxels) := by
  have h : update [] [bareVoxel] = [0] := by decide
  exact ⟨h, fun hall => hall [bareVoxel] 0 (by rw [h]; exact List.mem_singleton.2 rfl)⟩

/-! ## The frame-size assertion of the constructor -/

/-- Once a size of positive area is stored, the frame-size loop fails exactly when a
later camera reports another size. -/
theorem planeSizeLoop_eq_none_iff (rest : List Camera) (plane_size : Size)
    (hpos : 0 < plane_size.area) :
    planeSizeLoop rest plane_size = none ↔ ∃ b ∈ rest, b.getSize ≠ plane_size := by
  induction rest with
  | nil => simp [planeSizeLoop]
  | cons cam rest ih =>
    rw [planeSizeLoop, if_pos hpos]
    by_cases hsame : plane_size.width = cam.getSize.width ∧ plane_size.height = cam.getSize.height
    · have heq : cam.getSize = plane_size := by
        cases hs : cam.getSize
        cases plane_size
        simp_all
      rw [if_pos hsame, ih]
      simp [heq]
    · rw [if_neg hsame]
      simp only [List.mem_cons, exists_eq_or_imp, true_iff]
      left
      intro heq
      exact hsame (by rw [heq]; exact ⟨rfl, rfl⟩)

/-- A camera whose frame has positive area and that is followed by a camera of another
frame size stays such a pair when a camera is put in front of the list. -/
theorem mismatch_cons (cam : Camera) (rest : List Camera)
    (h : ∃ (i j : Nat) (camA camB : Camera), i < j ∧ rest[i]? = some camA ∧
      rest[j]? = some camB ∧ 0 < camA.getSize.area ∧ camA.getSize ≠ camB.getSize) :
    ∃ (i j : Nat) (camA camB : Camera), i < j ∧ (cam :: rest)[i]? = some camA ∧
      (cam :: rest)[j]? = some camB ∧ 0 < camA.getSize.area ∧ camA.getSize ≠ camB.getSize := by
  obtain ⟨i, j, camA, camB, hij, hA, hB, hpos, hne⟩ := h
  exact ⟨i + 1, j + 1, camA, camB, by omega, by simpa using hA, by simpa using hB, hpos, hne⟩

/-- While no size of positive area is stored, the frame-size loop fails exactly when
some camera whose frame has positive area is followed by a camera of another frame
size. -/
theorem planeSizeLoop_eq_none_iff_mismatch (cams : List Camera) (plane_size : Size)
    (hzero : ¬ (0 < plane_size.area)) :
    planeSizeLoop cams plane_size = none ↔
      ∃ (i j : Nat) (camA camB : Camera), i < j ∧ cams[i]? = some camA ∧
        cams[j]? = some camB ∧ 0 < camA.getSize.area ∧ camA.getSize ≠ camB.getSize := by
  induction cams generalizing plane_size with
  | nil =>
    simp only [planeSizeLoop, List.getElem?_nil, false_and, and_false, exists_false,
      exists_const]
    simp
  | cons cam rest ih =>
    have hguard : ¬ (plane_size.area > 0) := hzero
    rw [planeSizeLoop, if_neg hguard]
    by_cases hpos : 0 < cam.getSize.area
    · rw [planeSizeLoop_eq_none_iff rest cam.getSize hpos]
      constructor
      · rintro ⟨b, hb, hne⟩
        obtain ⟨j, hj⟩ := List.mem_iff_getElem?.1 hb
        exact ⟨0, j + 1, cam, b, by omega, List.getElem?_cons_zero, by simpa using hj, hpos,
          fun h => hne h.symm⟩
      · rintro ⟨i, j, camA, camB, hij, hA, hB, hposA, hne⟩
        have hjB : camB ∈ rest := by
          cases j with
          | zero => omega
          | succ j =>
            rw [List.getElem?_cons_succ] at hB
            exact List.mem_iff_getElem?.2 ⟨j, hB⟩
        cases i with
        | zero =>
          simp only [List.getElem?_cons_zero, Option.some.injEq] at hA
          subst hA
          exact ⟨camB, hjB, fun h => hne h.symm⟩
        | succ i =>
          rw [List.getElem?_cons_succ] at hA
          have hiA : camA ∈ rest := List.mem_iff_getElem?.2 ⟨i, hA⟩
          by_cases hsame : camA.getSize = cam.getSize
          · exact ⟨camB, hjB, fun h => hne (hsame.trans h.symm)⟩
          · exact ⟨camA, hiA, hsame⟩
    · rw [ih cam.getSize hpos]
      constructor
      · exact mismatch_cons cam rest
      · rintro ⟨i, j, camA, camB, hij, hA, hB, hposA, hne⟩
        cases i with
        | zero =>
          simp only [List.getElem?_cons_zero, Option.some.injEq] at hA
          subst hA
          exact absurd hposA hpos
        | succ i =>
          cases j with
          | zero => omega
          | succ j =>
            rw [List.getElem?_cons_succ] at hA hB
            exact ⟨i, j, camA, camB, by omega, hA, hB, hposA, hne⟩

/-- The constructor fails exactly on the lists of cameras in which some camera whose
frame has positive area is followed by a camera of another frame size. -/
theorem constructor_eq_none_iff (cams : List Camera) :
    Reconstructor cams = none ↔
      ∃ (i j : Nat) (camA camB : Camera), i < j ∧ cams[i]? = some camA ∧
        cams[j]? = some camB ∧ 0 < camA.getSize.area ∧ camA.getSize ≠ camB.getSize := by
  have hzero : ¬ (0 < (default : Size).area) := by decide
  rw [← planeSizeLoop_eq_none_iff_mismatch cams default hzero]
  unfold Reconstructor
  cases planeSizeLoop cams default <;> simp

/-- C5 (amended). The constructor fails (the frame-size assertion is violated) for
every list of cameras in which some camera whose frame has positive area (the 32-bit
product `width * height` is positive) is followed, anywhere later in the list, by a
camera that reports a different frame size. -/
theorem constructor_fails_on_size_mismatch (cams : List Camera)
    (hdiff : ∃ (i j : Nat) (camA camB : Camera), i < j ∧ cams[i]? = some camA ∧
      cams[j]? = some camB ∧ 0 < camA.getSize.area ∧ camA.getSize ≠ camB.getSize) :
    Reconstructor cams = none :=
  (constructor_eq_none_iff cams).2 hdiff

/-- C5 (amended), at a concrete input: a camera with an empty `0 x 0` frame, then a
644 x 486 camera, then a 640 x 480 one. -/
theorem constructor_fails_on_size_mismatch_witness :
    (∃ (i j : Nat) (camA camB : Camera), i < j ∧
      [fixedCamera 0 0 0 0 0, fixedCamera 644 486 0 0 0, fixedCamera 640 480 0 0 0][i]?
        = some camA ∧
      [fixedCamera 0 0 0 0 0, fixedCamera 644 486 0 0 0, fixedCamera 640 480 0 0 0][j]?
        = some camB ∧
      0 < camA.getSize.area ∧ camA.getSize ≠ camB.getSize) ∧
    Reconstructor [fixedCamera 0 0 0 0 0, fixedCamera 644 486 0 0 0, fixedCamera 640 480 0 0 0]
      = none :=
  ⟨⟨1, 2, fixedCamera 644 486 0 0 0, fixedCamera 640 480 0 0 0, by decide, rfl, rfl, by decide,
      by decide⟩,
    constructor_fails_on_size_mismatch
      [fixedCamera 0 0 0 0 0, fixedCamera 644 486 0 0 0, fixedCamera 640 480 0 0 0]
      ⟨1, 2, fixedCamera 644 486 0 0 0, fixedCamera 640 480 0 0 0, by decide, rfl, rfl,
        by decide, by decide⟩⟩

/-- A first camera of 65536 x 65536 pixels has the 32-bit area 0, so a following
camera of another size is stored without comparison and the constructor succeeds. -/
theorem constructor_accepts_mismatch_after_wrapped_area :
    (⟨65536, 65536⟩ : Size).area = 0 ∧
    planeSizeLoop [fixedCamera 65536 65536 0 0 0, fixedCamera 644 486 0 0 0] default
      = some ⟨644, 486⟩ := by
  constructor <;> decide

/-- C5, counterexample: a camera reporting an empty `0 x 0` frame followed by a
644 x 486 camera. The two frame sizes differ, the assertion is never evaluated, and
the constructor succeeds with plane size `644 x 486`. -/
theorem constructor_accepts_mismatch_after_empty_frame :
    (fixedCamera 0 0 0 0 0).getSize ≠ (fixedCamera 644 486 0 0 0).getSize ∧
    planeSizeLoop [fixedCamera 0 0 0 0 0, fixedCamera 644 486 0 0 0] default
      = some ⟨644, 486⟩ ∧
    (Reconstructor [fixedCamera 0 0 0 0 0, fixedCamera 644 486 0 0 0]).isSome = true := by
  have hloop : planeSizeLoop [fixedCamera 0 0 0 0 0, fixedCamera 644 486 0 0 0] default
      = some ⟨644, 486⟩ := by decide
  refine ⟨by decide, hloop, ?_⟩
  simp [Reconstructor, hloop]

/-! ## The lattice of `initialize` and the voxel index -/

/-- With a positive step the fuel of `forRangeAux` suffices: the loop variable takes
exactly the values `lo + i * step` below `hi`. -/
theorem mem_forRangeAux (S : Nat) (hS : 0 < S) (fuel : Nat) (lo hi x : Int)
    (hfuel : (hi - lo).toNat ≤ fuel) :
    x ∈ forRangeAux fuel lo hi S ↔ ∃ i : Nat, x = lo + i * S ∧ x < hi := by
  have hSi : (0 : Int) < S := by exact_mod_cast hS
  induction fuel generalizing lo with
  | zero =>
    simp only [forRangeAux, List.not_mem_nil, false_iff]
    rintro ⟨i, hx, hlt⟩
    have : (0 : Int) ≤ i * S := by positivity
    omega
  | succ fuel ih =>
    rw [forRangeAux]
    by_cases hlo : lo < hi
    · have hrec := ih (lo + S) (by omega)
      rw [if_pos hlo, List.mem_cons]
      constructor
      · rintro (h | h)
        · exact ⟨0, by simp [h], by omega⟩
        · obtain ⟨i, hx, hlt⟩ := hrec.1 h
          exact ⟨i + 1, by push_cast; rw [hx]; ring, hlt⟩
      · rintro ⟨i, hx, hlt⟩
        cases i with
        | zero => left; simpa using hx
        | succ i => right; exact hrec.2 ⟨i, by rw [hx]; push_cast; ring, hlt⟩
    · rw [if_neg hlo]
      simp only [List.not_mem_nil, false_iff]
      rintro ⟨i, hx, hlt⟩
      have : (0 : Int) ≤ i * S := by positivity
      omega

/-- The values of the loop variable of `for (v = lo; v < hi; v += step)`, `step > 0`. -/
theorem mem_forRange (S : Nat) (hS : 0 < S) (lo hi x : Int) :
    x ∈ forRange lo hi S ↔ ∃ i : Nat, x = lo + i * S ∧ x < hi :=
  mem_forRangeAux S hS _ lo hi x (le_refl _)

/-- The list `latticePoints` holds exactly the lattice points. -/
theorem mem_latticePoints (H S : Nat) (x y z : Int) :
    (x, y, z) ∈ latticePoints H S ↔ onLattice H S x y z := by
  simp only [latticePoints, onLattice, List.mem_flatMap, List.mem_map, Prod.mk.injEq]
  constructor
  · rintro ⟨z1, hz, y1, hy, x1, hx, rfl, rfl, rfl⟩
    exact ⟨hx, hy, hz⟩
  · rintro ⟨hx, hy, hz⟩
    exact ⟨z, hz, y, hy, x, hx, rfl, rfl, rfl⟩

/-- The constant `plane_x` is the quotient `2 * H / S`. -/
theorem plane_x_eq (H S : Nat) : plane_x H S = ((2 * H / S : Nat) : Int) := by
  unfold plane_x
  rw [Int.tdiv_eq_ediv (by omega) (Int.ofNat_nonneg S)]
  push_cast
  congr 1
  ring

/-- The constant `plane_y` is the quotient `2 * H / S`. -/
theorem plane_y_eq (H S : Nat) : plane_y H S = ((2 * H / S : Nat) : Int) := by
  unfold plane_y
  rw [Int.tdiv_eq_ediv (by omega) (Int.ofNat_nonneg S)]
  push_cast
  congr 1
  ring

/-- The index of the lattice point with offsets `i`, `j`, `k` (in steps) from the lower
bounds is `k * m * m + j * m + i` with `m = 2 * H / S`. -/
theorem voxelIndex_offsets (H S : Nat) (hS : 0 < S) (i j k : Nat) :
    voxelIndex H S (-(H : Int) + i * S) (-(H : Int) + j * S) (k * S)
      = ((k * ((2 * H / S) * (2 * H / S)) + j * (2 * H / S) + i : Nat) : Int) := by
  have hSi : (S : Int) ≠ 0 := by exact_mod_cast hS.ne'
  have hq : ∀ n : Nat, ((n : Int) * S).tdiv S = n := fun n => by
    rw [Int.tdiv_eq_ediv (by positivity) (Int.ofNat_nonneg S), Int.mul_ediv_cancel _ hSi]
  unfold voxelIndex
  simp only [plane_x_eq, plane_y_eq, sub_zero, sub_neg_eq_add, neg_add_cancel_comm, hq]
  push_cast
  ring_nf

/-- When the step divides the half-extent, a lattice point lies `i`, `j`, `k` steps
from the lower bounds with `i, j < 2 * H / S` and `k < H / S`. -/
theorem onLattice_offsets (H S : Nat) (hS : 0 < S) (hdvd : S ∣ H) (x y z : Int)
    (h : onLattice H S x y z) :
    ∃ i j k : Nat, i < 2 * H / S ∧ j < 2 * H / S ∧ k < H / S ∧
      x = -(H : Int) + i * S ∧ y = -(H : Int) + j * S ∧ z = k * S := by
  obtain ⟨hx, hy, hz⟩ := h
  obtain ⟨i, hxi, hxlt⟩ := (mem_forRange S hS _ _ x).1 hx
  obtain ⟨j, hyj, hylt⟩ := (mem_forRange S hS _ _ y).1 hy
  obtain ⟨k, hzk, hzlt⟩ := (mem_forRange S hS _ _ z).1 hz
  have h2 : 2 * H / S * S = 2 * H := Nat.div_mul_cancel (Dvd.dvd.mul_left hdvd 2)
  have h1 : H / S * S = H := Nat.div_mul_cancel hdvd
  refine ⟨i, j, k, ?_, ?_, ?_, hxi, hyj, by rw [hzk]; ring⟩
  · apply Nat.lt_of_mul_lt_mul_right (a := S)
    rw [h2]
    rw [hxi] at hxlt
    omega
  · apply Nat.lt_of_mul_lt_mul_right (a := S)
    rw [h2]
    rw [hyj] at hylt
    omega
  · apply Nat.lt_of_mul_lt_mul_right (a := S)
    rw [h1]
    rw [hzk] at hzlt
    omega

/-- The three digits of `k * (m * m) + j * m + i` in base `m`. -/
theorem index_digits (m i j k : Nat) (hi : i < m) (hj : j < m) :
    (k * (m * m) + j * m + i) % m = i ∧
    (k * (m * m) + j * m + i) / m % m = j ∧
    (k * (m * m) + j * m + i) / (m * m) = k := by
  have hm : 0 < m := by omega
  have e1 : k * (m * m) + j * m + i = i + (k * m + j) * m := by ring
  have hdiv : (k * (m * m) + j * m + i) / m = k * m + j := by
    rw [e1, Nat.add_mul_div_right _ _ hm, Nat.div_eq_of_lt hi, Nat.zero_add]
  refine ⟨?_, ?_, ?_⟩
  · rw [e1, Nat.add_mul_mod_self_right, Nat.mod_eq_of_lt hi]
  · rw [hdiv, Nat.add_comm, Nat.add_mul_mod_self_right, Nat.mod_eq_of_lt hj]
  · rw [← Nat.div_div_eq_div_mul, hdiv, Nat.add_comm, Nat.add_mul_div_right _ _ hm,
      Nat.div_eq_of_lt hj, Nat.zero_add]

/-- The index `k * (m * m) + j * m + i` with `i, j < m` and `k < n` is below `m * m * n`. -/
theorem index_lt_amount (m n i j k : Nat) (hi : i < m) (hj : j < m) (hk : k < n) :
    k * (m * m) + j * m + i < m * m * n := by
  have h1 : j * m + i < m * m := by
    calc j * m + i < j * m + m := by omega
      _ = (j + 1) * m := by ring
      _ ≤ m * m := Nat.mul_le_mul_right m hj
  calc k * (m * m) + j * m + i < k * (m * m) + m * m := by omega
    _ = (k + 1) * (m * m) := by ring
    _ ≤ n * (m * m) := Nat.mul_le_mul_right (m * m) hk
    _ = m * m * n := by ring

/-! ## Writes of `initialize` into `m_voxels` -/

/-- The writes of `initialize` do not change the size of the vector. -/
theorem length_writeVoxel (voxels : List (Option Voxel)) (p : Int) (voxel : Voxel) :
    (writeVoxel voxels p voxel).length = voxels.length := by
  unfold writeVoxel
  split <;> simp

/-- A sequence of writes does not change the size of the vector. -/
theorem length_foldl_writeVoxel {τ : Type} (idx : τ → Int) (f : τ → Voxel) (l : List τ)
    (voxels : List (Option Voxel)) :
    (l.foldl (fun acc t => writeVoxel acc (idx t) (f t)) voxels).length = voxels.length := by
  induction l generalizing voxels with
  | nil => rfl
  | cons t l ih => rw [List.foldl_cons, ih, length_writeVoxel]

/-- A slot that no write of the sequence addresses keeps its content. -/
theorem getElem?_foldl_writeVoxel_of_ne {τ : Type} (idx : τ → Int) (f : τ → Voxel) (l : List τ)
    (voxels : List (Option Voxel)) (q : Int) (hq : 0 ≤ q) (hne : ∀ t ∈ l, idx t ≠ q) :
    (l.foldl (fun acc t => writeVoxel acc (idx t) (f t)) voxels)[q.toNat]? = voxels[q.toNat]? := by
  induction l generalizing voxels with
  | nil => rfl
  | cons t l ih =>
    rw [List.foldl_cons, ih _ (fun u hu => hne u (List.mem_cons_of_mem _ hu))]
    have ht : idx t ≠ q := hne t (List.mem_cons_self _ _)
    unfold writeVoxel
    split
    · rw [List.getElem?_set_ne]
      omega
    · rfl

/-- When the index is injective on the sequence of writes, the slot addressed by an
element of the sequence holds that element's voxel afterwards. -/
theorem getElem?_foldl_writeVoxel {τ : Type} (idx : τ → Int) (f : τ → Voxel) (l : List τ)
    (voxels : List (Option Voxel))
    (hinj : ∀ a ∈ l, ∀ b ∈ l, idx a = idx b → a = b)
    (a : τ) (ha : a ∈ l) (h0 : 0 ≤ idx a) (hlt : (idx a).toNat < voxels.length) :
    (l.foldl (fun acc t => writeVoxel acc (idx t) (f t)) voxels)[(idx a).toNat]?
      = some (some (f a)) := by
  induction l generalizing voxels with
  | nil => cases ha
  | cons t l ih =>
    rw [List.foldl_cons]
    by_cases hal : a ∈ l
    · exact ih _ (fun b hb c hc => hinj b (List.mem_cons_of_mem _ hb) c (List.mem_cons_of_mem _ hc))
        hal (by rw [length_writeVoxel]; exact hlt)
    · have hat : a = t := by
        rcases List.mem_cons.1 ha with h | h
        · exact h
        · exact absurd h hal
      subst hat
      rw [getElem?_foldl_writeVoxel_of_ne idx f l _ (idx a) h0]
      · unfold writeVoxel
        rw [if_pos h0, List.getElem?_set_self hlt]
      · intro u hu hidx
        have := hinj u (List.mem_cons_of_mem _ hu) a (List.mem_cons_self _ _) hidx
        exact hal (this ▸ hu)

/-- Every slot after a sequence of writes holds its old content or the voxel of one
of the writes. -/
theorem mem_foldl_writeVoxel {τ : Type} (idx : τ → Int) (f : τ → Voxel) (l : List τ)
    (voxels : List (Option Voxel)) (e : Option Voxel)
    (he : e ∈ l.foldl (fun acc t => writeVoxel acc (idx t) (f t)) voxels) :
    e ∈ voxels ∨ ∃ t ∈ l, e = some (f t) := by
  induction l generalizing voxels with
  | nil => exact Or.inl he
  | cons t l ih =>
    rw [List.foldl_cons] at he
    rcases ih _ he with h | ⟨u, hu, hue⟩
    · unfold writeVoxel at h
      split at h
      · rcases List.mem_or_eq_of_mem_set h with h2 | h2
        · exact Or.inl h2
        · exact Or.inr ⟨t, List.mem_cons_self _ _, h2⟩
      · exact Or.inl h
    · exact Or.inr ⟨u, List.mem_cons_of_mem _ hu, hue⟩

/-- Folding over a `flatMap` is folding the inner lists in turn. -/
theorem foldl_flatMap_eq {α β γ : Type} (g : α → List β) (f : γ → β → γ) (l : List α) (init : γ) :
    (l.flatMap g).foldl f init = l.foldl (fun acc a => (g a).foldl f acc) init := by
  induction l generalizing init with
  | nil => rfl
  | cons a l ih => rw [List.flatMap_cons, List.foldl_append, ih, List.foldl_cons]

/-- The three nested loops of `initialize` perform one write per lattice point, in
the order of `latticePoints`. -/
theorem initializeVoxels_eq_foldl (cams : List Camera) (plane_size : Size) (H S amount : Nat) :
    initializeVoxels cams plane_size H S amount
      = (latticePoints H S).foldl
          (fun acc t => writeVoxel acc (voxelIndex H S t.1 t.2.1 t.2.2)
            (newVoxel cams plane_size t.1 t.2.1 t.2.2))
          (List.replicate amount none) := by
  simp only [initializeVoxels, latticePoints, foldl_flatMap_eq, List.foldl_map]

/-! ## The projection tables built by `initialize` -/

/-- The camera loop leaves the coordinates of the voxel alone. -/
theorem projectLoop_coords (plane_size : Size) (x y z : Int) (rest : List Camera) (c : Nat)
    (voxel : Voxel) :
    (projectLoop plane_size x y z c rest voxel).x = voxel.x ∧
    (projectLoop plane_size x y z c rest voxel).y = voxel.y ∧
    (projectLoop plane_size x y z c rest voxel).z = voxel.z := by
  induction rest generalizing c voxel with
  | nil => exact ⟨rfl, rfl, rfl⟩
  | cons cam rest ih =>
    rw [projectLoop]
    by_cases hin : inView plane_size (cam.projectOnView x y z) = true
    · simp only [hin, if_true]
      exact ih _ _
    · simp only [hin, if_false, Bool.false_eq_true]
      exact ih _ _

/-- The camera loop leaves the sizes of the two tables alone. -/
theorem projectLoop_length (plane_size : Size) (x y z : Int) (rest : List Camera) (c : Nat)
    (voxel : Voxel) :
    (projectLoop plane_size x y z c rest voxel).camera_projection.length
        = voxel.camera_projection.length ∧
    (projectLoop plane_size x y z c rest voxel).valid_camera_projection.length
        = voxel.valid_camera_projection.length := by
  induction rest generalizing c voxel with
  | nil => exact ⟨rfl, rfl⟩
  | cons cam rest ih =>
    rw [projectLoop]
    by_cases hin : inView plane_size (cam.projectOnView x y z) = true
    · simp only [hin, if_true]
      have := ih (c + 1) { voxel with
        camera_projection := voxel.camera_projection.set c (cam.projectOnView x y z),
        valid_camera_projection := voxel.valid_camera_projection.set c 1 }
      simpa using this
    · simp only [hin, if_false, Bool.false_eq_true]
      have := ih (c + 1) { voxel with
        camera_projection := voxel.camera_projection.set c (cam.projectOnView x y z) }
      simpa using this

/-- The camera loop started at camera `c` leaves the entries below `c` alone. -/
theorem projectLoop_below (plane_size : Size) (x y z : Int) (rest : List Camera) (c : Nat)
    (voxel : Voxel) (j : Nat) (hj : j < c) :
    (projectLoop plane_size x y z c rest voxel).camera_projection[j]?
        = voxel.camera_projection[j]? ∧
    (projectLoop plane_size x y z c rest voxel).valid_camera_projection[j]?
        = voxel.valid_camera_projection[j]? := by
  induction rest generalizing c voxel with
  | nil => exact ⟨rfl, rfl⟩
  | cons cam rest ih =>
    rw [projectLoop]
    have hne : c ≠ j := by omega
    by_cases hin : inView plane_size (cam.projectOnView x y z) = true
    · simp only [hin, if_true]
      have := ih (c + 1) { voxel with
        camera_projection := voxel.camera_projection.set c (cam.projectOnView x y z),
        valid_camera_projection := voxel.valid_camera_projection.set c 1 } (by omega)
      simpa [List.getElem?_set_ne hne] using this
    · simp only [hin, if_false, Bool.false_eq_true]
      have := ih (c + 1) { voxel with
        camera_projection := voxel.camera_projection.set c (cam.projectOnView x y z) } (by omega)
      simpa [List.getElem?_set_ne hne] using this

/-- The camera loop started at camera `c` stores, for the `i`-th remaining camera, its
projection of the point in entry `c + i`, and the flag 1 or 0 according to the
in-view test when the flag was 0 before. -/
theorem projectLoop_entry (plane_size : Size) (x y z : Int) (rest : List Camera) (c : Nat)
    (voxel : Voxel) (i : Nat) (cam : Camera) (hcam : rest[i]? = some cam)
    (hlen : c + i < voxel.camera_projection.length)
    (hzero : voxel.valid_camera_projection[c + i]? = some 0) :
    (projectLoop plane_size x y z c rest voxel).camera_projection[c + i]?
        = some (cam.projectOnView x y z) ∧
    (projectLoop plane_size x y z c rest voxel).valid_camera_projection[c + i]?
        = some (if inView plane_size (cam.projectOnView x y z) then 1 else 0) := by
  induction rest generalizing c voxel i with
  | nil => simp at hcam
  | cons cam0 rest ih =>
    rw [projectLoop]
    have hvlen : c + i < voxel.valid_camera_projection.length := by
      by_contra hge
      rw [List.getElem?_eq_none (by omega)] at hzero
      cases hzero
    cases i with
    | zero =>
      simp only [List.getElem?_cons_zero, Option.some.injEq] at hcam
      subst hcam
      simp only [Nat.add_zero] at hlen hzero hvlen ⊢
      by_cases hin : inView plane_size (cam0.projectOnView x y z) = true
      · simp only [hin, if_true]
        have := projectLoop_below plane_size x y z rest (c + 1) { voxel with
          camera_projection := voxel.camera_projection.set c (cam0.projectOnView x y z),
          valid_camera_projection := voxel.valid_camera_projection.set c 1 } c (by omega)
        rw [this.1, this.2]
        simp [List.getElem?_set_self hlen, List.getElem?_set_self hvlen]
      · simp only [hin, if_false, Bool.false_eq_true]
        have := projectLoop_below plane_size x y z rest (c + 1) { voxel with
          camera_projection := voxel.camera_projection.set c (cam0.projectOnView x y z) }
          c (by omega)
        rw [this.1, this.2]
        simp [List.getElem?_set_self hlen, hzero]
    | succ i =>
      simp only [List.getElem?_cons_succ] at hcam
      have hidx : c + (i + 1) = c + 1 + i := by omega
      have hne : c ≠ c + 1 + i := by omega
      rw [hidx] at hlen hzero ⊢
      by_cases hin : inView plane_size (cam0.projectOnView x y z) = true
      · simp only [hin, if_true]
        exact ih (c + 1) _ i hcam (by simpa using hlen)
          (by simpa [List.getElem?_set_ne hne] using hzero)
      · simp only [hin, if_false, Bool.false_eq_true]
        exact ih (c + 1) _ i hcam (by simpa using hlen) (by simpa using hzero)

/-- The voxel created for a lattice point: its coordinates, the sizes of its tables,
and for every camera its projection and its flag. -/
theorem newVoxel_spec (cams : List Camera) (plane_size : Size) (x y z : Int) :
    (newVoxel cams plane_size x y z).x = x ∧
    (newVoxel cams plane_size x y z).y = y ∧
    (newVoxel cams plane_size x y z).z = z ∧
    (newVoxel cams plane_size x y z).camera_projection.length = cams.length ∧
    (newVoxel cams plane_size x y z).valid_camera_projection.length = cams.length ∧
    (∀ (c : Nat) (cam : Camera), cams[c]? = some cam →
      (newVoxel cams plane_size x y z).camera_projection[c]? = some (cam.projectOnView x y z) ∧
      (newVoxel cams plane_size x y z).valid_camera_projection[c]?
        = some (if inView plane_size (cam.projectOnView x y z) then 1 else 0)) := by
  unfold newVoxel
  refine ⟨(projectLoop_coords _ _ _ _ _ _ _).1, (projectLoop_coords _ _ _ _ _ _ _).2.1,
    (projectLoop_coords _ _ _ _ _ _ _).2.2, ?_, ?_, ?_⟩
  · rw [(projectLoop_length _ _ _ _ _ _ _).1]
    simp
  · rw [(projectLoop_length _ _ _ _ _ _ _).2]
    simp
  · intro c cam hcam
    have hc : c < cams.length := by
      by_contra hge
      rw [List.getElem?_eq_none (by omega)] at hcam
      cases hcam
    have := projectLoop_entry plane_size x y z cams 0
      { x := x, y := y, z := z,
        camera_projection := List.replicate cams.length default,
        valid_camera_projection := List.replicate cams.length 0 } c cam hcam
      (by simpa using hc) (by simp [List.getElem?_replicate, hc])
    simpa using this

/-! ## The voxel index on the lattice -/

/-- On the lattice the index is a valid slot number and its three base-`plane_x`
digits give back the coordinates. -/
theorem voxelIndex_recover (H S : Nat) (hS : 0 < S) (hdvd : S ∣ H) (x y z : Int)
    (h : onLattice H S x y z) :
    0 ≤ voxelIndex H S x y z ∧
    (voxelIndex H S x y z).toNat < voxelsAmount H S ∧
    x = -(H : Int) + (voxelIndex H S x y z % plane_x H S) * S ∧
    y = -(H : Int) + (voxelIndex H S x y z / plane_x H S % plane_y H S) * S ∧
    z = 0 + (voxelIndex H S x y z / (plane_y H S * plane_x H S)) * S := by
  obtain ⟨i, j, k, hi, hj, hk, hx, hy, hz⟩ := onLattice_offsets H S hS hdvd x y z h
  subst hx hy hz
  rw [voxelIndex_offsets H S hS, plane_x_eq, plane_y_eq]
  obtain ⟨d0, d1, d2⟩ := index_digits (2 * H / S) i j k hi hj
  have hlt := index_lt_amount (2 * H / S) (H / S) i j k hi hj hk
  have e0 : ((k * (2 * H / S * (2 * H / S)) + j * (2 * H / S) + i : Nat) : Int)
      % ((2 * H / S : Nat) : Int) = (i : Int) := by exact_mod_cast d0
  have e1 : ((k * (2 * H / S * (2 * H / S)) + j * (2 * H / S) + i : Nat) : Int)
      / ((2 * H / S : Nat) : Int) % ((2 * H / S : Nat) : Int) = (j : Int) := by exact_mod_cast d1
  have e2 : ((k * (2 * H / S * (2 * H / S)) + j * (2 * H / S) + i : Nat) : Int)
      / (((2 * H / S : Nat) : Int) * ((2 * H / S : Nat) : Int)) = (k : Int) := by
    exact_mod_cast d2
  refine ⟨Int.ofNat_nonneg _, ?_, ?_, ?_, ?_⟩
  · rw [Int.toNat_natCast]
    exact hlt
  · rw [e0]
  · rw [e1]
  · rw [e2]
    ring

/-- C2. When the step is positive and divides the half-extent (as for the constants
`m_height = 2048`, `m_step = 128`), the voxel index is injective on the lattice
points visited by the loops of `initialize`, the coordinates are recovered from the
index `p` as `x = xL + (p mod plane_x) * S`, `y = yL + ((p / plane_x) mod plane_y) * S`,
`z = zL + (p / (plane_y * plane_x)) * S`, and the voxel stored at `m_voxels[p]` has
exactly those coordinates. -/
theorem voxelIndex_bijective_on_lattice (cams : List Camera) (plane_size : Size) (H S : Nat)
    (hS : 0 < S) (hdvd : S ∣ H) :
    (∀ x y z x2 y2 z2 : Int, onLattice H S x y z → onLattice H S x2 y2 z2 →
        (x, y, z) ≠ (x2, y2, z2) → voxelIndex H S x y z ≠ voxelIndex H S x2 y2 z2) ∧
    (∀ x y z : Int, onLattice H S x y z →
        0 ≤ voxelIndex H S x y z ∧
        x = -(H : Int) + (voxelIndex H S x y z % plane_x H S) * S ∧
        y = -(H : Int) + (voxelIndex H S x y z / plane_x H S % plane_y H S) * S ∧
        z = 0 + (voxelIndex H S x y z / (plane_y H S * plane_x H S)) * S ∧
        ∃ voxel : Voxel,
          (initializeVoxels cams plane_size H S (voxelsAmount H S))[(voxelIndex H S x y z).toNat]?
            = some (some voxel) ∧
          voxel.x = x ∧ voxel.y = y ∧ voxel.z = z) := by
  have hinj : ∀ x y z x2 y2 z2 : Int, onLattice H S x y z → onLattice H S x2 y2 z2 →
      voxelIndex H S x y z = voxelIndex H S x2 y2 z2 → (x, y, z) = (x2, y2, z2) := by
    intro x y z x2 y2 z2 h1 h2 heq
    obtain ⟨_, _, hx, hy, hz⟩ := voxelIndex_recover H S hS hdvd x y z h1
    obtain ⟨_, _, hx2, hy2, hz2⟩ := voxelIndex_recover H S hS hdvd x2 y2 z2 h2
    rw [heq] at hx hy hz
    rw [hx, hy, hz, ← hx2, ← hy2, ← hz2]
  refine ⟨fun x y z x2 y2 z2 h1 h2 hne heq => hne (hinj x y z x2 y2 z2 h1 h2 heq), ?_⟩
  intro x y z h
  obtain ⟨h0, hlt, hx, hy, hz⟩ := voxelIndex_recover H S hS hdvd x y z h
  have hcoords := newVoxel_spec cams plane_size x y z
  refine ⟨h0, hx, hy, hz, newVoxel cams plane_size x y z, ?_, hcoords.1, hcoords.2.1,
    hcoords.2.2.1⟩
  have hinj2 : ∀ a ∈ latticePoints H S, ∀ b ∈ latticePoints H S,
      voxelIndex H S a.1 a.2.1 a.2.2 = voxelIndex H S b.1 b.2.1 b.2.2 → a = b := by
    rintro ⟨a1, a2, a3⟩ ha ⟨b1, b2, b3⟩ hb hab
    exact hinj a1 a2 a3 b1 b2 b3 ((mem_latticePoints H S _ _ _).1 ha)
      ((mem_latticePoints H S _ _ _).1 hb) hab
  have hlen : (voxelIndex H S x y z).toNat
      < (List.replicate (voxelsAmount H S) (none : Option Voxel)).length := by
    rw [List.length_replicate]
    exact hlt
  have key := getElem?_foldl_writeVoxel (fun t : Int × Int × Int => voxelIndex H S t.1 t.2.1 t.2.2)
    (fun t => newVoxel cams plane_size t.1 t.2.1 t.2.2) (latticePoints H S)
    (List.replicate (voxelsAmount H S) none) hinj2 (x, y, z)
    ((mem_latticePoints H S x y z).2 h) h0 hlen
  rw [initializeVoxels_eq_foldl]
  exact key

/-- C2, at the constants of the source: `m_step = 128` is positive and divides
`m_height = 2048`. -/
theorem voxelIndex_bijective_on_lattice_witness :
    0 < m_step ∧ m_step ∣ m_height ∧
    ((∀ x y z x2 y2 z2 : Int, onLattice m_height m_step x y z →
        onLattice m_height m_step x2 y2 z2 → (x, y, z) ≠ (x2, y2, z2) →
        voxelIndex m_height m_step x y z ≠ voxelIndex m_height m_step x2 y2 z2) ∧
    (∀ x y z : Int, onLattice m_height m_step x y z →
        0 ≤ voxelIndex m_height m_step x y z ∧
        x = -(m_height : Int)
          + (voxelIndex m_height m_step x y z % plane_x m_height m_step) * m_step ∧
        y = -(m_height : Int)
          + (voxelIndex m_height m_step x y z / plane_x m_height m_step
              % plane_y m_height m_step) * m_step ∧
        z = 0 + (voxelIndex m_height m_step x y z
              / (plane_y m_height m_step * plane_x m_height m_step)) * m_step ∧
        ∃ voxel : Voxel,
          (initializeVoxels [] default m_height m_step (voxelsAmount m_height m_step))[
              (voxelIndex m_height m_step x y z).toNat]?
            = some (some voxel) ∧
          voxel.x = x ∧ voxel.y = y ∧ voxel.z = z)) :=
  ⟨by decide, by decide,
    voxelIndex_bijective_on_lattice [] default m_height m_step (by decide) (by decide)⟩

/-- C4. Every voxel stored by `initialize` holds, for every camera `c`, the camera's
projection of the voxel's `(x, y, z)` in `camera_projection[c]`, and
`valid_camera_projection[c]` is 1 if and only if `0 <= point.x < width` and
`0 <= point.y < height` for the plane size, and is 0 otherwise. -/
theorem initialize_projection_tables (cams : List Camera) (plane_size : Size)
    (H S amount : Nat) (voxel : Voxel)
    (hmem : some voxel ∈ initializeVoxels cams plane_size H S amount)
    (c : Nat) (cam : Camera) (hcam : cams[c]? = some cam) :
    voxel.camera_projection[c]? = some (cam.projectOnView voxel.x voxel.y voxel.z) ∧
    (voxel.valid_camera_projection[c]? = some 1 ↔
      (0 ≤ (cam.projectOnView voxel.x voxel.y voxel.z).x ∧
        (cam.projectOnView voxel.x voxel.y voxel.z).x < plane_size.width ∧
        0 ≤ (cam.projectOnView voxel.x voxel.y voxel.z).y ∧
        (cam.projectOnView voxel.x voxel.y voxel.z).y < plane_size.height)) ∧
    (voxel.valid_camera_projection[c]? = some 0 ↔
      ¬ (0 ≤ (cam.projectOnView voxel.x voxel.y voxel.z).x ∧
        (cam.projectOnView voxel.x voxel.y voxel.z).x < plane_size.width ∧
        0 ≤ (cam.projectOnView voxel.x voxel.y voxel.z).y ∧
        (cam.projectOnView voxel.x voxel.y voxel.z).y < plane_size.height)) := by
  rw [initializeVoxels_eq_foldl] at hmem
  rcases mem_foldl_writeVoxel _ _ _ _ _ hmem with h | ⟨t, _, ht⟩
  · simp [List.mem_replicate] at h
  · simp only [Option.some.injEq] at ht
    obtain ⟨hx, hy, hz, _, _, htab⟩ := newVoxel_spec cams plane_size t.1 t.2.1 t.2.2
    obtain ⟨hp, hv⟩ := htab c cam hcam
    rw [← ht] at hx hy hz hp hv
    rw [hx, hy, hz]
    refine ⟨hp, ?_, ?_⟩
    · rw [hv]
      by_cases hin : inView plane_size (cam.projectOnView t.1 t.2.1 t.2.2) = true
      · simp only [hin, if_true, true_iff]
        simpa [inView] using hin
      · simp only [hin, if_false, Bool.false_eq_true, Option.some.injEq]
        simp only [inView, decide_eq_true_eq, ge_iff_le] at hin
        simp [hin]
    · rw [hv]
      by_cases hin : inView plane_size (cam.projectOnView t.1 t.2.1 t.2.2) = true
      · simp only [hin, if_true, Option.some.injEq]
        simp only [inView, decide_eq_true_eq, ge_iff_le] at hin
        simp [hin]
      · simp only [hin, if_false, Bool.false_eq_true, true_iff]
        simpa [inView] using hin

/-- C4, at a concrete input: the grid of half-extent 1 and step 1 (four voxels) with
one 644 x 486 camera that projects every point to pixel `(3, 4)`. -/
theorem initialize_projection_tables_witness :
    some cornerVoxel ∈ initializeVoxels [viewCamera] ⟨644, 486⟩ 1 1 4 ∧
    [viewCamera][0]? = some viewCamera ∧
    (cornerVoxel.camera_projection[0]?
        = some (viewCamera.projectOnView cornerVoxel.x cornerVoxel.y cornerVoxel.z) ∧
    (cornerVoxel.valid_camera_projection[0]? = some 1 ↔
      (0 ≤ (viewCamera.projectOnView cornerVoxel.x cornerVoxel.y cornerVoxel.z).x ∧
        (viewCamera.projectOnView cornerVoxel.x cornerVoxel.y cornerVoxel.z).x
          < (⟨644, 486⟩ : Size).width ∧
        0 ≤ (viewCamera.projectOnView cornerVoxel.x cornerVoxel.y cornerVoxel.z).y ∧
        (viewCamera.projectOnView cornerVoxel.x cornerVoxel.y cornerVoxel.z).y
          < (⟨644, 486⟩ : Size).height)) ∧
    (cornerVoxel.valid_camera_projection[0]? = some 0 ↔
      ¬ (0 ≤ (viewCamera.projectOnView cornerVoxel.x cornerVoxel.y cornerVoxel.z).x ∧
        (viewCamera.projectOnView cornerVoxel.x cornerVoxel.y cornerVoxel.z).x
          < (⟨644, 486⟩ : Size).width ∧
        0 ≤ (viewCamera.projectOnView cornerVoxel.x cornerVoxel.y cornerVoxel.z).y ∧
        (viewCamera.projectOnView cornerVoxel.x cornerVoxel.y cornerVoxel.z).y
          < (⟨644, 486⟩ : Size).height))) :=
  ⟨by decide, rfl,
    initialize_projection_tables [viewCamera] ⟨644, 486⟩ 1 1 4 cornerVoxel (by decide) 0
      viewCamera rfl⟩

/-- The grid of half-extent 1 and step 1 built for one camera: four voxels in
x-fastest order, each with the camera's pixel and the flag 1. -/
theorem initializeVoxels_small_grid :
    initializeVoxels [viewCamera] ⟨644, 486⟩ 1 1 (voxelsAmount 1 1)
      = [some ⟨-1, -1, 0, [⟨3, 4⟩], [1]⟩, some ⟨0, -1, 0, [⟨3, 4⟩], [1]⟩,
         some ⟨-1, 0, 0, [⟨3, 4⟩], [1]⟩, some ⟨0, 0, 0, [⟨3, 4⟩], [1]⟩] := by
  decide

/-! ## The membership lists of `cluster` -/

/-- When every index has a label that addresses a list, the loop of `cluster` succeeds
and appends to list `k` the indices labelled `k`, in the order in which they are visited. -/
theorem clusterLoop_spec (labels : List Int) (idxs : List Nat) (clusters : List (List Nat))
    (h : ∀ i ∈ idxs, ∃ l : Nat, labels[i]? = some (l : Int) ∧ l < clusters.length) :
    ∃ res, clusterLoop labels idxs clusters = some res ∧ res.length = clusters.length ∧
      ∀ (k : Nat) (members : List Nat), clusters[k]? = some members →
        res[k]? = some (members ++ idxs.filter (fun i => decide (labels[i]? = some (k : Int)))) := by
  induction idxs generalizing clusters with
  | nil => exact ⟨clusters, rfl, rfl, fun k members hk => by simpa using hk⟩
  | cons i rest ih =>
    obtain ⟨l, hl, hlt⟩ := h i (List.mem_cons_self _ _)
    have hcond : 0 ≤ (l : Int) ∧ (l : Int).toNat < clusters.length := by
      rw [Int.toNat_natCast]
      exact ⟨Int.ofNat_nonneg l, hlt⟩
    obtain ⟨res, hres, hreslen, hresk⟩ :=
      ih (List.modify (fun members => members ++ [i]) l clusters) (fun j hj => by
        obtain ⟨l2, hl2, hlt2⟩ := h j (List.mem_cons_of_mem _ hj)
        exact ⟨l2, hl2, by rw [List.length_modify]; exact hlt2⟩)
    refine ⟨res, ?_, ?_, ?_⟩
    · rw [clusterLoop, hl]
      simp only
      rw [if_pos hcond, Int.toNat_natCast]
      exact hres
    · rw [hreslen, List.length_modify]
    · intro k members hk
      have hmod : (List.modify (fun members => members ++ [i]) l clusters)[k]?
          = some (if l = k then members ++ [i] else members) := by
        rw [List.getElem?_modify, hk]
        rfl
      rw [hresk k _ hmod, List.filter_cons]
      by_cases hlk : l = k
      · subst hlk
        simp [hl]
      · have hne : ¬ (labels[i]? = some (k : Int)) := by
          rw [hl]
          intro heq
          exact hlk (by exact_mod_cast Option.some.inj heq)
        simp [hlk, hne]

/-- Indices labelled in `[0, 4)` are split by the four labels. -/
theorem length_filter_labels (labels : List Int) (idxs : List Nat)
    (h : ∀ i ∈ idxs, ∃ l : Nat, labels[i]? = some (l : Int) ∧ l < 4) :
    (idxs.filter (fun i => decide (labels[i]? = some (0 : Int)))).length
      + (idxs.filter (fun i => decide (labels[i]? = some (1 : Int)))).length
      + (idxs.filter (fun i => decide (labels[i]? = some (2 : Int)))).length
      + (idxs.filter (fun i => decide (labels[i]? = some (3 : Int)))).length
      = idxs.length := by
  induction idxs with
  | nil => rfl
  | cons i rest ih =>
    obtain ⟨l, hl, hlt⟩ := h i (List.mem_cons_self _ _)
    have hrest := ih (fun j hj => h j (List.mem_cons_of_mem _ hj))
    simp only [List.filter_cons, hl, List.length_cons]
    interval_cases l <;> simp <;> omega

/-- When the primitive returns one label in `[0, 4)` per point, `cluster` returns, and
its list `k` holds the indices labelled `k` in increasing order. -/
theorem cluster_spec (kmeans : KMeans) (visible : List Voxel) (labels : List Int)
    (centers : List Point2f)
    (hk : kmeans (visible.map (fun voxel => Point2f.mk voxel.x voxel.y)) 4 10
      = some (labels, centers))
    (hlen : labels.length = visible.length)
    (hrange : ∀ label ∈ labels, 0 ≤ label ∧ label < 4) :
    ∃ st, cluster kmeans visible = some st ∧ st.m_clusterLabels = labels ∧
      st.m_clusters.length = 4 ∧
      (∀ i, i < visible.length → ∃ l : Nat, labels[i]? = some (l : Int) ∧ l < 4) ∧
      ∀ k : Nat, k < 4 → st.m_clusters[k]?
        = some ((List.range visible.length).filter
            (fun i => decide (labels[i]? = some (k : Int)))) := by
  have hlab : ∀ i, i < visible.length → ∃ l : Nat, labels[i]? = some (l : Int) ∧ l < 4 := by
    intro i hi
    have hi2 : i < labels.length := by omega
    obtain ⟨h0, h4⟩ := hrange labels[i] (List.getElem_mem hi2)
    refine ⟨labels[i].toNat, ?_, by omega⟩
    rw [List.getElem?_eq_getElem hi2, Int.toNat_of_nonneg h0]
  obtain ⟨res, hres, hreslen, hresk⟩ := clusterLoop_spec labels (List.range visible.length)
    (List.replicate 4 []) (fun i hi => by
      obtain ⟨l, hl, hlt⟩ := hlab i (List.mem_range.1 hi)
      exact ⟨l, hl, by simpa using hlt⟩)
  refine ⟨{ m_groundCoordinates := visible.map (fun voxel => Point2f.mk voxel.x voxel.y),
            m_clusterLabels := labels, m_centers := centers, m_clusters := res }, ?_, rfl,
    by simpa using hreslen, hlab, ?_⟩
  · simp only [cluster, hk, hres]
  · intro k hk4
    have := hresk k [] (by rw [List.getElem?_replicate, if_pos hk4])
    simpa using this

/-- C7. Given that the k-means primitive returns one label in `[0, K)` per input
point (`K = 4`), `cluster` on `N` visible voxels returns exactly `K` membership lists
that partition the indices `0 .. N - 1`: every `i < N` occurs exactly once in the list
of its label and in no other list, every stored index is below `N`, each list is in
increasing order, and the list sizes sum to `N`. -/
theorem cluster_partitions_indices (kmeans : KMeans) (visible : List Voxel) (labels : List Int)
    (centers : List Point2f)
    (hk : kmeans (visible.map (fun voxel => Point2f.mk voxel.x voxel.y)) 4 10
      = some (labels, centers))
    (hlen : labels.length = visible.length)
    (hrange : ∀ label ∈ labels, 0 ≤ label ∧ label < 4) :
    ∃ st, cluster kmeans visible = some st ∧ st.m_clusterLabels = labels ∧
      st.m_clusters.length = 4 ∧
      (∀ i, i < visible.length → ∃ lab : Nat, st.m_clusterLabels[i]? = some (lab : Int) ∧
        lab < 4 ∧ (st.m_clusters.getD lab []).count i = 1 ∧
        ∀ k : Nat, k ≠ lab → i ∉ st.m_clusters.getD k []) ∧
      (∀ members ∈ st.m_clusters,
        (∀ i ∈ members, i < visible.length) ∧ members.Sorted (fun a b => a < b)) ∧
      (st.m_clusters.map List.length).sum = visible.length := by
  obtain ⟨st, hst, hlabels, hlen4, hlab, hlists⟩ :=
    cluster_spec kmeans visible labels centers hk hlen hrange
  have hgetD : ∀ k : Nat, k < 4 → st.m_clusters.getD k []
      = (List.range visible.length).filter (fun i => decide (labels[i]? = some (k : Int))) := by
    intro k hk4
    rw [List.getD_eq_getElem?_getD, hlists k hk4]
    rfl
  refine ⟨st, hst, hlabels, hlen4, ?_, ?_, ?_⟩
  · intro i hi
    obtain ⟨lab, hl, hlt⟩ := hlab i hi
    refine ⟨lab, by rw [hlabels]; exact hl, hlt, ?_, ?_⟩
    · rw [hgetD lab hlt]
      apply List.count_eq_one_of_mem ((List.nodup_range _).filter _)
      simp [hi, hl]
    · intro k hne hmem
      by_cases hk4 : k < 4
      · rw [hgetD k hk4] at hmem
        simp only [List.mem_filter, List.mem_range, decide_eq_true_eq] at hmem
        rw [hl] at hmem
        exact hne (by exact_mod_cast (Option.some.inj hmem.2).symm)
      · rw [List.getD_eq_getElem?_getD, List.getElem?_eq_none (by omega)] at hmem
        simp at hmem
  · intro members hmem
    obtain ⟨k, hk⟩ := List.mem_iff_getElem?.1 hmem
    have hk4 : k < 4 := by
      by_contra hge
      rw [List.getElem?_eq_none (by omega)] at hk
      cases hk
    rw [hlists k hk4] at hk
    cases hk
    refine ⟨fun i hi => List.mem_range.1 (List.mem_filter.1 hi).1, ?_⟩
    exact (List.sorted_lt_range _).filter _
  · obtain ⟨c0, c1, c2, c3, hc⟩ : ∃ c0 c1 c2 c3, st.m_clusters = [c0, c1, c2, c3] := by
      match hm : st.m_clusters, hlen4 with
      | [c0, c1, c2, c3], _ => exact ⟨c0, c1, c2, c3, rfl⟩
    have h0 := hlists 0 (by omega)
    have h1 := hlists 1 (by omega)
    have h2 := hlists 2 (by omega)
    have h3 := hlists 3 (by omega)
    rw [hc] at h0 h1 h2 h3
    simp only [List.getElem?_cons_zero, List.getElem?_cons_succ, Option.some.injEq,
      Nat.cast_zero, Nat.cast_one, Nat.cast_ofNat] at h0 h1 h2 h3
    have hsum := length_filter_labels labels (List.range visible.length)
      (fun i hi => hlab i (List.mem_range.1 hi))
    rw [← h0, ← h1, ← h2, ← h3, List.length_range] at hsum
    rw [hc]
    simp only [List.map_cons, List.map_nil, List.sum_cons, List.sum_nil]
    omega

/-- C7, at a concrete input: five visible voxels labelled 0, 1, 2, 3, 0. -/
theorem cluster_partitions_indices_witness :
    kmeansRoundRobin
        ((List.replicate 5 bareVoxel).map (fun voxel => Point2f.mk voxel.x voxel.y)) 4 10
      = some ([0, 1, 2, 3, 0], List.replicate 4 ⟨0, 0⟩) ∧
    ([0, 1, 2, 3, 0] : List Int).length = (List.replicate 5 bareVoxel).length ∧
    (∀ label ∈ ([0, 1, 2, 3, 0] : List Int), 0 ≤ label ∧ label < 4) ∧
    ∃ st, cluster kmeansRoundRobin (List.replicate 5 bareVoxel) = some st ∧
      st.m_clusterLabels = [0, 1, 2, 3, 0] ∧
      st.m_clusters.length = 4 ∧
      (∀ i, i < (List.replicate 5 bareVoxel).length →
        ∃ lab : Nat, st.m_clusterLabels[i]? = some (lab : Int) ∧
        lab < 4 ∧ (st.m_clusters.getD lab []).count i = 1 ∧
        ∀ k : Nat, k ≠ lab → i ∉ st.m_clusters.getD k []) ∧
      (∀ members ∈ st.m_clusters,
        (∀ i ∈ members, i < (List.replicate 5 bareVoxel).length) ∧
          members.Sorted (fun a b => a < b)) ∧
      (st.m_clusters.map List.length).sum = (List.replicate 5 bareVoxel).length :=
  ⟨by decide, by decide, by decide,
    cluster_partitions_indices kmeansRoundRobin (List.replicate 5 bareVoxel) [0, 1, 2, 3, 0]
      (List.replicate 4 ⟨0, 0⟩) (by decide) (by decide) (by decide)⟩

/-- The clustering of five voxels labelled 0, 1, 2, 3, 0: the four membership lists. -/
theorem cluster_round_robin_lists :
    (cluster kmeansRoundRobin (List.replicate 5 bareVoxel)).map (fun st => st.m_clusters)
      = some [[0, 4], [1], [2], [3]] := by
  decide

/-- C9 (amended). Provided the k-means primitive returns (one label in `[0, K)` per
point), `cluster` returns `K = 4` membership lists for every number `N` of visible
voxels, in particular for `N < K`; for `N = 0` all four lists are empty. -/
theorem cluster_returns_four_lists (kmeans : KMeans) (visible : List Voxel) (labels : List Int)
    (centers : List Point2f)
    (hk : kmeans (visible.map (fun voxel => Point2f.mk voxel.x voxel.y)) 4 10
      = some (labels, centers))
    (hlen : labels.length = visible.length)
    (hrange : ∀ label ∈ labels, 0 ≤ label ∧ label < 4) :
    ∃ st, cluster kmeans visible = some st ∧ st.m_clusters.length = 4 ∧
      (visible.length = 0 → st.m_clusters = [[], [], [], []]) := by
  obtain ⟨st, hst, _, hlen4, _, hlists⟩ :=
    cluster_spec kmeans visible labels centers hk hlen hrange
  refine ⟨st, hst, hlen4, ?_⟩
  intro hzero
  obtain ⟨c0, c1, c2, c3, hc⟩ : ∃ c0 c1 c2 c3, st.m_clusters = [c0, c1, c2, c3] := by
    match hm : st.m_clusters, hlen4 with
    | [c0, c1, c2, c3], _ => exact ⟨c0, c1, c2, c3, rfl⟩
  have h0 := hlists 0 (by omega)
  have h1 := hlists 1 (by omega)
  have h2 := hlists 2 (by omega)
  have h3 := hlists 3 (by omega)
  rw [hc, hzero] at h0 h1 h2 h3
  simp only [List.getElem?_cons_zero, List.getElem?_cons_succ, Option.some.injEq,
    List.range_zero, List.filter_nil] at h0 h1 h2 h3
  rw [hc, h0, h1, h2, h3]

/-- C9 (amended), at a concrete input: two visible voxels (`N = 2 < K`) and a
primitive that labels them 0 and 1. -/
theorem cluster_returns_four_lists_witness :
    kmeansRoundRobin
        ((List.replicate 2 bareVoxel).map (fun voxel => Point2f.mk voxel.x voxel.y)) 4 10
      = some ([0, 1], List.replicate 4 ⟨0, 0⟩) ∧
    ([0, 1] : List Int).length = (List.replicate 2 bareVoxel).length ∧
    (∀ label ∈ ([0, 1] : List Int), 0 ≤ label ∧ label < 4) ∧
    ∃ st, cluster kmeansRoundRobin (List.replicate 2 bareVoxel) = some st ∧
      st.m_clusters.length = 4 ∧
      ((List.replicate 2 bareVoxel).length = 0 → st.m_clusters = [[], [], [], []]) :=
  ⟨by decide, by decide, by decide,
    cluster_returns_four_lists kmeansRoundRobin (List.replicate 2 bareVoxel) [0, 1]
      (List.replicate 4 ⟨0, 0⟩) (by decide) (by decide) (by decide)⟩

/-- C9, counterexample: `cluster` calls the primitive without any guard on `N`, so
with a primitive that rejects fewer points than clusters it returns no clusters for
the empty visible set and for a single visible voxel. -/
theorem cluster_fails_when_kmeans_rejects :
    cluster kmeansChecked [] = none ∧ cluster kmeansChecked [bareVoxel] = none := by
  constructor <;> decide

/-- An exception of the primitive ends `cluster`. -/
theorem cluster_eq_none_of_kmeans (kmeans : KMeans) (visible : List Voxel)
    (hk : kmeans (visible.map (fun voxel => Point2f.mk voxel.x voxel.y)) 4 10 = none) :
    cluster kmeans visible = none := by
  simp only [cluster, hk]

/-! ## The colour samples of `buildOfflineColorModels` -/

/-- The run of the concrete input above: the artifacts of cluster 0 are written (its
means being the transposed colour of the one pixel), then the function ends at the
cluster without members. -/
theorem buildOfflineColorModels_stops_at_empty_cluster :
    buildOfflineColorModels id trainNonEmpty fourCameras [seenVoxel 0 0 0] [[0], []]
      = ([{ k := 0, means := [[10], [20], [30]], covs := [] }], false) ∧
    buildOfflineColorModels id trainNonEmpty fourCameras [seenVoxel 0 0 0] [[]]
      = ([], false) := by
  constructor <;> decide

/-- The guarantee rests on the fit: `buildOfflineColorModels` has no test of its own
on the number of samples, so a fit that accepted the empty matrix would get its
result written for a cluster without members. -/
theorem buildOfflineColorModels_writes_for_empty_cluster :
    noValidPixel [seenVoxel 0 0 0] 3 [] ∧
    buildOfflineColorModels id trainAny fourCameras [seenVoxel 0 0 0] [[]]
      = ([{ k := 0, means := [], covs := [] }], true) := by
  refine ⟨fun _ h => absurd h (List.not_mem_nil _), ?_⟩
  decide

/-- The map `points` after the member loop: its keys are the old keys and the valid
pixels of the members, no key is repeated, and every colour is the frame's colour at
its key. -/
theorem collectPoints_spec (current_frame : Image Vec3b) (visible : List Voxel) (camera : Nat)
    (members : List Nat) (points : List (Point × Vec3b))
    (hin : ∀ member ∈ members, ∃ voxel, visible[member]? = some voxel ∧
      camera < voxel.valid_camera_projection.length ∧
      camera < voxel.camera_projection.length) :
    ∃ res, collectPoints current_frame visible camera members points = some res ∧
      (∀ p, p ∈ res.map Prod.fst ↔
        p ∈ points.map Prod.fst ∨ p ∈ validPixels visible camera members) ∧
      ((points.map Prod.fst).Nodup → (res.map Prod.fst).Nodup) ∧
      ((∀ e ∈ points, e.2 = current_frame.at e.1) → ∀ e ∈ res, e.2 = current_frame.at e.1) := by
  induction members generalizing points with
  | nil => exact ⟨points, rfl, fun p => by simp [validPixels], id, id⟩
  | cons member rest ih =>
    obtain ⟨voxel, hv, hlv, hlp⟩ := hin member (List.mem_cons_self _ _)
    have hrest := fun m hm => hin m (List.mem_cons_of_mem _ hm)
    have hflag : voxel.valid_camera_projection[camera]?
        = some voxel.valid_camera_projection[camera] := List.getElem?_eq_getElem hlv
    have hpoint : voxel.camera_projection[camera]?
        = some voxel.camera_projection[camera] := List.getElem?_eq_getElem hlp
    have hgetD : voxel.valid_camera_projection.getD camera 0
        = voxel.valid_camera_projection[camera] := by
      rw [List.getD_eq_getElem?_getD, hflag]
      rfl
    by_cases hvalid : voxel.valid_camera_projection[camera] = 0
    · have hpix : validPixels visible camera (member :: rest)
          = validPixels visible camera rest := by
        simp [validPixels, List.filterMap_cons, hv, hflag, hvalid]
      obtain ⟨res, hres, hkeys, hnodup, hcol⟩ := ih points hrest
      refine ⟨res, ?_, ?_, hnodup, hcol⟩
      · rw [collectPoints, hv]
        simp only [hflag, hvalid, ne_eq, not_true_eq_false, if_false]
        exact hres
      · rw [hpix]
        exact hkeys
    · have hpix : validPixels visible camera (member :: rest)
          = voxel.camera_projection[camera] :: validPixels visible camera rest := by
        simp [validPixels, List.filterMap_cons, hv, hflag, hpoint, hvalid]
      by_cases hany : points.any (fun entry => decide (entry.1 = voxel.camera_projection[camera]))
          = true
      · obtain ⟨res, hres, hkeys, hnodup, hcol⟩ := ih points hrest
        refine ⟨res, ?_, ?_, hnodup, hcol⟩
        · rw [collectPoints, hv]
          simp only [hflag, hpoint, hvalid, hany, ne_eq, not_false_eq_true, if_true]
          exact hres
        · intro p
          rw [hkeys p, hpix, List.mem_cons]
          have hkey : voxel.camera_projection[camera] ∈ points.map Prod.fst := by
            obtain ⟨e, he, hep⟩ := List.any_eq_true.1 hany
            exact List.mem_map.2 ⟨e, he, by simpa using hep⟩
          constructor
          · rintro (h | h)
            · exact Or.inl h
            · exact Or.inr (Or.inr h)
          · rintro (h | h | h)
            · exact Or.inl h
            · exact Or.inl (h ▸ hkey)
            · exact Or.inr h
      · obtain ⟨res, hres, hkeys, hnodup, hcol⟩ := ih
          (points ++ [(voxel.camera_projection[camera],
            current_frame.at voxel.camera_projection[camera])]) hrest
        have hnew : voxel.camera_projection[camera] ∉ points.map Prod.fst := by
          intro hmem
          obtain ⟨e, he, hep⟩ := List.mem_map.1 hmem
          exact hany (List.any_eq_true.2 ⟨e, he, by simpa using hep⟩)
        refine ⟨res, ?_, ?_, ?_, ?_⟩
        · rw [collectPoints, hv]
          simp only [hflag, hpoint, hvalid, hany, ne_eq, not_false_eq_true, if_true,
            Bool.false_eq_true, if_false]
          exact hres
        · intro p
          rw [hkeys p, hpix]
          simp only [List.map_append, List.map_cons, List.map_nil, List.mem_append,
            List.mem_singleton, List.mem_cons]
          tauto
        · intro hnd
          apply hnodup
          rw [List.map_append, List.nodup_append]
          refine ⟨hnd, List.nodup_singleton _, ?_⟩
          intro a ha hb
          rw [List.map_cons, List.map_nil, List.mem_singleton] at hb
          have hb2 : a = voxel.camera_projection[camera] := hb
          rw [hb2] at ha
          exact hnew ha
        · intro hc
          apply hcol
          intro e he
          rcases List.mem_append.1 he with h | h
          · exact hc e h
          · rw [List.mem_singleton.1 h]

/-- The matrix `colors` before the final transposition holds one row of three
channels per distinct valid pixel of the cluster, each row being the frame's colour
at its pixel. -/
theorem colorRows_one_per_pixel (current_frame : Image Vec3b) (visible : List Voxel)
    (camera : Nat) (members : List Nat)
    (hin : ∀ member ∈ members, ∃ voxel, visible[member]? = some voxel ∧
      camera < voxel.valid_camera_projection.length ∧
      camera < voxel.camera_projection.length) :
    ∃ points, collectPoints current_frame visible camera members [] = some points ∧
      (points.map Prod.fst).Perm (validPixels visible camera members).dedup ∧
      (colorRows points).length = (validPixels visible camera members).dedup.length ∧
      colorRows points = points.map (fun entry =>
        [(current_frame.at entry.1).v0, (current_frame.at entry.1).v1,
          (current_frame.at entry.1).v2]) := by
  obtain ⟨points, hres, hkeys, hnodup, hcol⟩ :=
    collectPoints_spec current_frame visible camera members [] hin
  have hperm : (points.map Prod.fst).Perm (validPixels visible camera members).dedup := by
    rw [List.perm_ext_iff_of_nodup (hnodup List.nodup_nil) (List.nodup_dedup _)]
    intro p
    rw [hkeys p, List.mem_dedup]
    simp
  refine ⟨points, hres, hperm, ?_, ?_⟩
  · rw [← hperm.length_eq]
    simp [colorRows]
  · unfold colorRows
    apply List.map_congr_left
    intro e he
    rw [hcol (fun _ h => absurd h (List.not_mem_nil _)) e he]

/-- The transposition turns the rows of `colors` into three rows, one per channel,
as soon as there is one colour. -/
theorem transposed_colorRows (points : List (Point × Vec3b)) (hne : points ≠ []) :
    transposed (colorRows points)
      = [points.map (fun entry => entry.2.v0), points.map (fun entry => entry.2.v1),
         points.map (fun entry => entry.2.v2)] := by
  cases points with
  | nil => exact absurd rfl hne
  | cons e rest =>
    simp [transposed, colorRows, List.range_succ, Function.comp_def]

/-- C8, evaluated: two member voxels with the distinct valid pixels `(3, 4)` and
`(5, 6)` on the reference camera, whose colours are `(3, 4, 7)` and `(5, 6, 7)`. The
matrix `colors` holds these two colours as rows before `colors = colors.t()`; the
matrix handed to `trainEM` is its transpose, with the three rows `(3, 5)`, `(4, 6)`,
`(7, 7)`. -/
theorem sampleMatrix_is_transposed :
    validPixels twoPixelVoxels 3 [0, 1] = [⟨3, 4⟩, ⟨5, 6⟩] ∧
    (collectPoints gradientCamera.getFrame twoPixelVoxels 3 [0, 1] []).map colorRows
      = some [[3, 4, 7], [5, 6, 7]] ∧
    sampleMatrix gradientCamera.getFrame twoPixelVoxels 3 [0, 1]
      = some [[3, 5], [4, 6], [7, 7]] ∧
    buildOfflineColorModels id trainAny gradientCameras twoPixelVoxels [[0, 1]]
      = ([{ k := 0, means := [[3, 5], [4, 6], [7, 7]], covs := [] }], true) := by
  refine ⟨by decide, by decide, by decide, by decide⟩

/-! ## The number of voxels -/

/-- A loop over `n` steps of size `S > 0` runs `n` times. -/
theorem length_forRangeAux (S : Nat) (hS : 0 < S) (n fuel : Nat) (lo : Int)
    (hfuel : n * S ≤ fuel) :
    (forRangeAux fuel lo (lo + n * S) S).length = n := by
  induction n generalizing lo fuel with
  | zero =>
    cases fuel with
    | zero => rfl
    | succ fuel => simp [forRangeAux]
  | succ n ih =>
    have hSi : (0 : Int) < S := by exact_mod_cast hS
    have hpos : (0 : Int) ≤ (n : Int) * S := by positivity
    have hmul : (n + 1) * S = n * S + S := by ring
    cases fuel with
    | zero => omega
    | succ fuel =>
      have hlt : lo < lo + ((n + 1 : Nat) : Int) * S := by
        push_cast
        nlinarith
      rw [forRangeAux, if_pos hlt, List.length_cons]
      have hhi : lo + ((n + 1 : Nat) : Int) * S = lo + S + (n : Int) * S := by
        push_cast
        ring
      rw [hhi, ih fuel (lo + S) (by omega)]

/-- The loop `for (v = lo; v < lo + n * S; v += S)` runs `n` times. -/
theorem length_forRange (S : Nat) (hS : 0 < S) (n : Nat) (lo : Int) :
    (forRange lo (lo + n * S) S).length = n := by
  unfold forRange
  apply length_forRangeAux S hS
  have : (lo + (n : Int) * S - lo).toNat = n * S := by
    rw [add_sub_cancel_left]
    exact_mod_cast Int.toNat_natCast (n * S)
  omega

/-- A `flatMap` of lists of a common length. -/
theorem length_flatMap_const {α β : Type} (f : α → List β) (c : Nat) (l : List α)
    (h : ∀ a, (f a).length = c) : (l.flatMap f).length = l.length * c := by
  induction l with
  | nil => simp
  | cons a l ih =>
    rw [List.flatMap_cons, List.length_append, ih, h a, List.length_cons]
    ring

/-- When the step is positive and divides the half-extent, the loops of `initialize`
visit as many lattice points as the constructor counts voxels. -/
theorem length_latticePoints (H S : Nat) (hS : 0 < S) (hdvd : S ∣ H) :
    (latticePoints H S).length = voxelsAmount H S := by
  obtain ⟨n, rfl⟩ := hdvd
  have hxy : (forRange (-((S * n : Nat) : Int)) ((S * n : Nat) : Int) S).length = 2 * n := by
    have h := length_forRange S hS (2 * n) (-((S * n : Nat) : Int))
    have e : -((S * n : Nat) : Int) + ((2 * n : Nat) : Int) * S = ((S * n : Nat) : Int) := by
      push_cast
      ring
    rw [e] at h
    exact h
  have hz : (forRange 0 ((S * n : Nat) : Int) S).length = n := by
    have h := length_forRange S hS n 0
    have e : (0 : Int) + (n : Int) * S = ((S * n : Nat) : Int) := by
      push_cast
      ring
    rw [e] at h
    exact h
  have hdiv1 : S * n / S = n := Nat.mul_div_cancel_left n hS
  have hdiv2 : 2 * (S * n) / S = 2 * n := by
    rw [show 2 * (S * n) = S * (2 * n) by ring]
    exact Nat.mul_div_cancel_left (2 * n) hS
  unfold latticePoints voxelsAmount
  rw [length_flatMap_const _ (2 * n * (2 * n)) _ (fun z => by
    rw [length_flatMap_const _ (2 * n) _ (fun y => by rw [List.length_map, hxy]), hxy]),
    hz, hdiv1, hdiv2]
  ring

/-- C11. With `H = 2048` and `S = 128` the voxel count of the constructor,
`(2H/S) * (2H/S) * (H/S)`, is `32 * 32 * 16 = 16384`, and the three nested loops of
`initialize` visit exactly that many lattice points (32 values of x, 32 of y and 16
of z). -/
theorem voxel_count_is_16384 :
    voxelsAmount m_height m_step = 32 * 32 * 16 ∧
    voxelsAmount m_height m_step = 16384 ∧
    (forRange (-(m_height : Int)) m_height m_step).length = 32 ∧
    (forRange 0 m_height m_step).length = 16 ∧
    (latticePoints m_height m_step).length = 16384 := by
  have hx : (forRange (-(m_height : Int)) m_height m_step).length = 32 := by
    have h := length_forRange m_step (by decide) 32 (-(m_height : Int))
    have e : -(m_height : Int) + ((32 : Nat) : Int) * m_step = (m_height : Int) := by decide
    rw [e] at h
    exact h
  have hz : (forRange 0 m_height m_step).length = 16 := by
    have h := length_forRange m_step (by decide) 16 0
    have e : (0 : Int) + ((16 : Nat) : Int) * m_step = (m_height : Int) := by decide
    rw [e] at h
    exact h
  have hl := length_latticePoints m_height m_step (by decide) (by decide)
  have hv : voxelsAmount m_height m_step = 16384 := by decide
  exact ⟨hv, hv, hx, hz, hl.trans hv⟩

/-! ## Masks that are off, and the state of `update` between frames -/

/-- C12. With at least one camera (in particular with four) and masks that are off
everywhere (no pixel has the value 255), `update` returns the empty visible set,
whatever the projection tables of the voxels are. -/
theorem update_all_masks_off (cams : List Camera) (voxels : List Voxel)
    (hcams : 0 < cams.length)
    (hoff : ∀ cam ∈ cams, ∀ p : Point, cam.getForegroundImage.at p ≠ 255) :
    update cams voxels = [] := by
  apply List.eq_nil_iff_forall_not_mem.2
  intro v hv
  obtain ⟨voxel, _, hcount⟩ := (mem_update cams voxels v).1 hv
  have hcam : cams[0]? = some cams[0] := List.getElem?_eq_getElem hcams
  have hagree := (agreeCount_eq_length_iff cams voxel).1 hcount 0 cams[0] hcam
  have hne := hoff cams[0] (List.getElem_mem hcams) (voxel.camera_projection.getD 0 default)
  simp [agreeing, -List.getD_eq_getElem?_getD, hne] at hagree

/-- C12, at a concrete input: four cameras with masks that are 0 everywhere and a
voxel flagged valid on all of them. -/
theorem update_all_masks_off_witness :
    0 < darkCameras.length ∧
    (∀ cam ∈ darkCameras, ∀ p : Point, cam.getForegroundImage.at p ≠ 255) ∧
    update darkCameras [seenVoxel 0 0 0, seenVoxel 128 0 0] = [] :=
  have hoff : ∀ cam ∈ darkCameras, ∀ p : Point, cam.getForegroundImage.at p ≠ 255 := by
    intro cam hcam p
    simp only [darkCameras, List.mem_cons, List.mem_singleton, List.not_mem_nil, or_false,
      or_self] at hcam
    subst hcam
    show (0 : Nat) ≠ 255
    decide
  ⟨by decide, hoff,
    update_all_masks_off darkCameras [seenVoxel 0 0 0, seenVoxel 128 0 0] (by decide) hoff⟩

/-- Full agreement on a voxel depends on the cameras through their masks only. -/
theorem fullAgreement_congr_masks (cams cams2 : List Camera) (voxels : List Voxel) (v : Nat)
    (hlen : cams.length = cams2.length)
    (hmask : ∀ (c : Nat) (cam cam2 : Camera), cams[c]? = some cam → cams2[c]? = some cam2 →
      ∀ p : Point, cam.getForegroundImage.at p = cam2.getForegroundImage.at p)
    (h : fullAgreement cams voxels v) : fullAgreement cams2 voxels v := by
  obtain ⟨voxel, hv, hcount⟩ := h
  refine ⟨voxel, hv, (agreeCount_eq_length_iff cams2 voxel).2 ?_⟩
  intro c cam2 hc2
  have hc : c < cams.length := by
    by_contra hge
    rw [List.getElem?_eq_none (by omega)] at hc2
    cases hc2
  have hcam : cams[c]? = some cams[c] := List.getElem?_eq_getElem hc
  have hagree := (agreeCount_eq_length_iff cams voxel).1 hcount c cams[c] hcam
  have hm := hmask c cams[c] cam2 hcam hc2
  simp only [agreeing, Bool.and_eq_true, decide_eq_true_eq] at hagree ⊢
  exact ⟨hagree.1, by rw [← hm]; exact hagree.2⟩

/-- C13. The member `m_visible_voxels` after `update` is a function of the voxel grid
and the current masks only: it does not depend on its previous content nor on
anything else of the cameras, so a second run on unchanged masks gives the identical
visible set (the old content is replaced, not appended to); and when the two runs
schedule the voxels differently the two results hold the same voxels. -/
theorem update_no_hidden_state (cams cams2 : List Camera) (voxels : List Voxel)
    (order old1 old2 : List Nat)
    (hlen : cams.length = cams2.length)
    (hmask : ∀ (c : Nat) (cam cam2 : Camera), cams[c]? = some cam → cams2[c]? = some cam2 →
      ∀ p : Point, cam.getForegroundImage.at p = cam2.getForegroundImage.at p) :
    updateVisibleVoxels cams voxels order old1 = updateVisibleVoxels cams2 voxels order old2 ∧
    updateVisibleVoxels cams voxels order (updateVisibleVoxels cams voxels order old1)
      = updateVisibleVoxels cams voxels order old1 ∧
    (∀ order2 : List Nat, order.Perm order2 →
      (updateVisibleVoxels cams voxels order old1).Perm
        (updateVisibleVoxels cams2 voxels order2 old2)) := by
  classical
  have hiff : ∀ v, fullAgreement cams voxels v ↔ fullAgreement cams2 voxels v := fun v =>
    ⟨fullAgreement_congr_masks cams cams2 voxels v hlen hmask,
      fullAgreement_congr_masks cams2 cams voxels v hlen.symm
        (fun c cam2 cam h2 h1 p => (hmask c cam cam2 h1 h2 p).symm)⟩
  have hfilter : ∀ l : List Nat, updateInOrder cams voxels l = updateInOrder cams2 voxels l := by
    intro l
    rw [updateInOrder_eq_filter, updateInOrder_eq_filter]
    apply List.filter_congr
    intro v _
    simp only [hiff v]
  refine ⟨?_, rfl, ?_⟩
  · simp only [updateVisibleVoxels, vectorClear, List.nil_append]
    exact hfilter order
  · intro order2 hperm
    simp only [updateVisibleVoxels, vectorClear, List.nil_append]
    rw [hfilter order, updateInOrder_eq_filter, updateInOrder_eq_filter]
    exact hperm.filter _

/-- C13, at a concrete input: the same four cameras, one visible voxel, and two
different previous contents of `m_visible_voxels`. -/
theorem update_no_hidden_state_witness :
    fourCameras.length = fourCameras.length ∧
    (∀ (c : Nat) (cam cam2 : Camera), fourCameras[c]? = some cam → fourCameras[c]? = some cam2 →
      ∀ p : Point, cam.getForegroundImage.at p = cam2.getForegroundImage.at p) ∧
    (updateVisibleVoxels fourCameras [seenVoxel 0 0 0] [0] [5, 7]
        = updateVisibleVoxels fourCameras [seenVoxel 0 0 0] [0] [] ∧
     updateVisibleVoxels fourCameras [seenVoxel 0 0 0] [0]
        (updateVisibleVoxels fourCameras [seenVoxel 0 0 0] [0] [5, 7])
        = updateVisibleVoxels fourCameras [seenVoxel 0 0 0] [0] [5, 7] ∧
     (∀ order2 : List Nat, [0].Perm order2 →
        (updateVisibleVoxels fourCameras [seenVoxel 0 0 0] [0] [5, 7]).Perm
          (updateVisibleVoxels fourCameras [seenVoxel 0 0 0] order2 []))) :=
  have hmask : ∀ (c : Nat) (cam cam2 : Camera), fourCameras[c]? = some cam →
      fourCameras[c]? = some cam2 →
      ∀ p : Point, cam.getForegroundImage.at p = cam2.getForegroundImage.at p := by
    intro c cam cam2 h1 h2 p
    rw [h1] at h2
    cases h2
    rfl
  ⟨rfl, hmask,
    update_no_hidden_state fourCameras fourCameras [seenVoxel 0 0 0] [0] [5, 7] [] rfl hmask⟩

/-- The visible set written by `update` over a previous content of two entries. -/
theorem updateVisibleVoxels_replaces :
    updateVisibleVoxels fourCameras [seenVoxel 0 0 0] [0] [5, 7] = [0] := by
  decide

/-! ## Every slot of `m_voxels` is assigned -/

/-- The vector built by `initialize` has as many slots as it was resized to. -/
theorem length_initializeVoxels (cams : List Camera) (plane_size : Size) (H S amount : Nat) :
    (initializeVoxels cams plane_size H S amount).length = amount := by
  rw [initializeVoxels_eq_foldl, length_foldl_writeVoxel, List.length_replicate]

/-- A voxel stored by `initialize` is the one created for some lattice point. -/
theorem mem_initializeVoxels (cams : List Camera) (plane_size : Size) (H S amount : Nat)
    (voxel : Voxel) (hmem : some voxel ∈ initializeVoxels cams plane_size H S amount) :
    ∃ x y z : Int, onLattice H S x y z ∧ voxel = newVoxel cams plane_size x y z := by
  rw [initializeVoxels_eq_foldl] at hmem
  rcases mem_foldl_writeVoxel _ _ _ _ _ hmem with h | ⟨t, htmem, ht⟩
  · simp [List.mem_replicate] at h
  · obtain ⟨x, y, z⟩ := t
    exact ⟨x, y, z, (mem_latticePoints H S x y z).1 htmem, Option.some.inj ht⟩

/-- The slot addressed by a lattice point holds the voxel created for that point. -/
theorem initializeVoxels_stored (cams : List Camera) (plane_size : Size) (H S : Nat)
    (hS : 0 < S) (hdvd : S ∣ H) (x y z : Int) (h : onLattice H S x y z) :
    (initializeVoxels cams plane_size H S (voxelsAmount H S))[(voxelIndex H S x y z).toNat]?
      = some (some (newVoxel cams plane_size x y z)) := by
  obtain ⟨h0, hlt, _, _, _⟩ := voxelIndex_recover H S hS hdvd x y z h
  have hinj : ∀ a ∈ latticePoints H S, ∀ b ∈ latticePoints H S,
      voxelIndex H S a.1 a.2.1 a.2.2 = voxelIndex H S b.1 b.2.1 b.2.2 → a = b := by
    rintro ⟨a1, a2, a3⟩ ha ⟨b1, b2, b3⟩ hb hab
    obtain ⟨_, _, hx, hy, hz⟩ :=
      voxelIndex_recover H S hS hdvd a1 a2 a3 ((mem_latticePoints H S _ _ _).1 ha)
    obtain ⟨_, _, hx2, hy2, hz2⟩ :=
      voxelIndex_recover H S hS hdvd b1 b2 b3 ((mem_latticePoints H S _ _ _).1 hb)
    simp only at hab hx hy hz hx2 hy2 hz2
    rw [hab] at hx hy hz
    rw [hx, hy, hz, ← hx2, ← hy2, ← hz2]
  have hlen : (voxelIndex H S x y z).toNat
      < (List.replicate (voxelsAmount H S) (none : Option Voxel)).length := by
    rw [List.length_replicate]
    exact hlt
  have key := getElem?_foldl_writeVoxel (fun t : Int × Int × Int => voxelIndex H S t.1 t.2.1 t.2.2)
    (fun t => newVoxel cams plane_size t.1 t.2.1 t.2.2) (latticePoints H S)
    (List.replicate (voxelsAmount H S) none) hinj (x, y, z)
    ((mem_latticePoints H S x y z).2 h) h0 hlen
  rw [initializeVoxels_eq_foldl]
  exact key

/-- The point `i`, `j`, `k` steps from the lower bounds, with `i, j < 2 * H / S` and
`k < H / S`, is visited by the loops. -/
theorem onLattice_of_offsets (H S : Nat) (hS : 0 < S) (i j k : Nat)
    (hi : i < 2 * H / S) (hj : j < 2 * H / S) (hk : k < H / S) :
    onLattice H S (-(H : Int) + i * S) (-(H : Int) + j * S) (k * S) := by
  have h2 : 2 * H / S * S ≤ 2 * H := Nat.div_mul_le_self _ _
  have h1 : H / S * S ≤ H := Nat.div_mul_le_self _ _
  have hiS : (i + 1) * S ≤ 2 * H / S * S := Nat.mul_le_mul_right S hi
  have hjS : (j + 1) * S ≤ 2 * H / S * S := Nat.mul_le_mul_right S hj
  have hkS : (k + 1) * S ≤ H / S * S := Nat.mul_le_mul_right S hk
  have hiS2 : (i + 1) * S = i * S + S := by ring
  have hjS2 : (j + 1) * S = j * S + S := by ring
  have hkS2 : (k + 1) * S = k * S + S := by ring
  refine ⟨(mem_forRange S hS _ _ _).2 ⟨i, rfl, ?_⟩, (mem_forRange S hS _ _ _).2 ⟨j, rfl, ?_⟩,
    (mem_forRange S hS _ _ _).2 ⟨k, by ring, ?_⟩⟩
  · have : ((i * S : Nat) : Int) < 2 * (H : Int) := by exact_mod_cast (by omega : i * S < 2 * H)
    push_cast at this
    linarith
  · have : ((j * S : Nat) : Int) < 2 * (H : Int) := by exact_mod_cast (by omega : j * S < 2 * H)
    push_cast at this
    linarith
  · have : ((k * S : Nat) : Int) < (H : Int) := by exact_mod_cast (by omega : k * S < H)
    push_cast at this
    linarith

/-- Every slot number below the voxel count is the index of a lattice point. -/
theorem slot_is_index (H S : Nat) (hS : 0 < S) (v : Nat) (hv : v < voxelsAmount H S) :
    ∃ x y z : Int, onLattice H S x y z ∧ voxelIndex H S x y z = (v : Int) := by
  unfold voxelsAmount at hv
  have hm : 0 < 2 * H / S := by
    rcases Nat.eq_zero_or_pos (2 * H / S) with h | h
    · rw [h] at hv
      simp at hv
    · exact h
  have hmm : 0 < 2 * H / S * (2 * H / S) := Nat.mul_pos hm hm
  have hk : v / (2 * H / S * (2 * H / S)) < H / S :=
    (Nat.div_lt_iff_lt_mul hmm).2 (by rw [Nat.mul_comm]; exact hv)
  have hi : v % (2 * H / S) < 2 * H / S := Nat.mod_lt _ hm
  have hj : v / (2 * H / S) % (2 * H / S) < 2 * H / S := Nat.mod_lt _ hm
  refine ⟨_, _, _, onLattice_of_offsets H S hS _ _ _ hi hj hk, ?_⟩
  rw [voxelIndex_offsets H S hS]
  have h1 := Nat.div_add_mod v (2 * H / S)
  have h2 := Nat.div_add_mod (v / (2 * H / S)) (2 * H / S)
  rw [Nat.div_div_eq_div_mul] at h2
  have : v / (2 * H / S * (2 * H / S)) * (2 * H / S * (2 * H / S))
      + v / (2 * H / S) % (2 * H / S) * (2 * H / S) + v % (2 * H / S) = v := by
    nlinarith
  exact_mod_cast this

/-- C16. When the step is positive and divides the half-extent (as for `H = 2048`,
`S = 128`), every index `p` written by `initialize` satisfies
`0 <= p < m_voxels_amount`, and after the loops every slot below `m_voxels_amount`
holds a voxel (each slot number is the index of a visited lattice point), so that
`m_voxels` is a list of voxels of length `m_voxels_amount` and the read `m_voxels[v]`
of `update` finds a voxel for every `v < m_voxels_amount`. -/
theorem initialize_assigns_every_slot (cams : List Camera) (plane_size : Size) (H S : Nat)
    (hS : 0 < S) (hdvd : S ∣ H) :
    (∀ x y z : Int, onLattice H S x y z →
        0 ≤ voxelIndex H S x y z ∧ voxelIndex H S x y z < (voxelsAmount H S : Int)) ∧
    (∀ v : Nat, v < voxelsAmount H S →
        ∃ x y z : Int, onLattice H S x y z ∧ voxelIndex H S x y z = (v : Int) ∧
          (initializeVoxels cams plane_size H S (voxelsAmount H S))[v]?
            = some (some (newVoxel cams plane_size x y z))) ∧
    (∃ voxels : List Voxel,
        allAssigned (initializeVoxels cams plane_size H S (voxelsAmount H S)) voxels ∧
        voxels.length = voxelsAmount H S ∧
        ∀ v : Nat, v < voxelsAmount H S → ∃ voxel, voxels[v]? = some voxel) := by
  have hslot : ∀ v : Nat, v < voxelsAmount H S →
      ∃ x y z : Int, onLattice H S x y z ∧ voxelIndex H S x y z = (v : Int) ∧
        (initializeVoxels cams plane_size H S (voxelsAmount H S))[v]?
          = some (some (newVoxel cams plane_size x y z)) := by
    intro v hv
    obtain ⟨x, y, z, hlat, hidx⟩ := slot_is_index H S hS v hv
    have hst := initializeVoxels_stored cams plane_size H S hS hdvd x y z hlat
    rw [hidx, Int.toNat_natCast] at hst
    exact ⟨x, y, z, hlat, hidx, hst⟩
  refine ⟨?_, hslot, ?_⟩
  · intro x y z h
    obtain ⟨h0, hlt, _, _, _⟩ := voxelIndex_recover H S hS hdvd x y z h
    exact ⟨h0, by omega⟩
  · refine ⟨(initializeVoxels cams plane_size H S (voxelsAmount H S)).map
      (fun slot => slot.getD default), ?_, ?_, ?_⟩
    · unfold allAssigned
      apply List.ext_getElem?
      intro v
      rw [List.map_map, List.getElem?_map]
      by_cases hv : v < voxelsAmount H S
      · obtain ⟨x, y, z, _, _, hst⟩ := hslot v hv
        rw [hst]
        rfl
      · rw [List.getElem?_eq_none (by rw [length_initializeVoxels]; omega)]
        rfl
    · rw [List.length_map, length_initializeVoxels]
    · intro v hv
      obtain ⟨x, y, z, _, _, hst⟩ := hslot v hv
      exact ⟨newVoxel cams plane_size x y z, by rw [List.getElem?_map, hst]; rfl⟩

/-- C16, at the constants of the source: `m_step = 128` is positive and divides
`m_height = 2048`. -/
theorem initialize_assigns_every_slot_witness :
    0 < m_step ∧ m_step ∣ m_height ∧
    ((∀ x y z : Int, onLattice m_height m_step x y z →
        0 ≤ voxelIndex m_height m_step x y z ∧
        voxelIndex m_height m_step x y z < (voxelsAmount m_height m_step : Int)) ∧
    (∀ v : Nat, v < voxelsAmount m_height m_step →
        ∃ x y z : Int, onLattice m_height m_step x y z ∧
          voxelIndex m_height m_step x y z = (v : Int) ∧
          (initializeVoxels fourCameras ⟨644, 486⟩ m_height m_step
              (voxelsAmount m_height m_step))[v]?
            = some (some (newVoxel fourCameras ⟨644, 486⟩ x y z))) ∧
    (∃ voxels : List Voxel,
        allAssigned (initializeVoxels fourCameras ⟨644, 486⟩ m_height m_step
          (voxelsAmount m_height m_step)) voxels ∧
        voxels.length = voxelsAmount m_height m_step ∧
        ∀ v : Nat, v < voxelsAmount m_height m_step → ∃ voxel, voxels[v]? = some voxel)) :=
  ⟨by decide, by decide,
    initialize_assigns_every_slot fourCameras ⟨644, 486⟩ m_height m_step (by decide) (by decide)⟩

/-- When the step is positive and divides the half-extent, the vector built by
`initialize` is a list of `m_voxels_amount` voxels, each created for a lattice point. -/
theorem initializeVoxels_allAssigned (cams : List Camera) (plane_size : Size) (H S : Nat)
    (hS : 0 < S) (hdvd : S ∣ H) :
    ∃ voxels : List Voxel,
      allAssigned (initializeVoxels cams plane_size H S (voxelsAmount H S)) voxels ∧
      voxels.length = voxelsAmount H S ∧
      ∀ voxel ∈ voxels, ∃ x y z : Int, onLattice H S x y z ∧
        voxel = newVoxel cams plane_size x y z := by
  have hslot : ∀ v : Nat, v < voxelsAmount H S → ∃ x y z : Int, onLattice H S x y z ∧
      (initializeVoxels cams plane_size H S (voxelsAmount H S))[v]?
        = some (some (newVoxel cams plane_size x y z)) := by
    intro v hv
    obtain ⟨x, y, z, hlat, hidx⟩ := slot_is_index H S hS v hv
    have hst := initializeVoxels_stored cams plane_size H S hS hdvd x y z hlat
    rw [hidx, Int.toNat_natCast] at hst
    exact ⟨x, y, z, hlat, hst⟩
  have hall : allAssigned (initializeVoxels cams plane_size H S (voxelsAmount H S))
      ((initializeVoxels cams plane_size H S (voxelsAmount H S)).map
        (fun slot => slot.getD default)) := by
    unfold allAssigned
    apply List.ext_getElem?
    intro v
    rw [List.map_map, List.getElem?_map]
    by_cases hv : v < voxelsAmount H S
    · obtain ⟨x, y, z, _, hst⟩ := hslot v hv
      rw [hst]
      rfl
    · rw [List.getElem?_eq_none (by rw [length_initializeVoxels]; omega)]
      rfl
  refine ⟨_, hall, by rw [List.length_map, length_initializeVoxels], ?_⟩
  intro voxel hmem
  apply mem_initializeVoxels cams plane_size H S (voxelsAmount H S) voxel
  unfold allAssigned at hall
  rw [hall]
  exact List.mem_map.2 ⟨voxel, hmem, rfl⟩

/-! ## Zero cameras -/

/-- C14, counterexample: the constructor called with zero cameras does not abort; it
returns a plane size and a voxel vector. -/
theorem constructor_accepts_zero_cameras :
    planeSizeLoop [] default = some ⟨0, 0⟩ ∧ (Reconstructor []).isSome = true := by
  have hloop : planeSizeLoop [] default = some ⟨0, 0⟩ := rfl
  refine ⟨hloop, ?_⟩
  simp [Reconstructor, hloop]

/-- C14 (amended). The constructor called with zero cameras completes: the frame-size
loop does not run, `m_plane_size` stays `0 x 0`, and the grid of all 16384 voxels is
built, each voxel with empty projection tables. -/
theorem constructor_zero_cameras_builds_grid :
    ∃ voxels : List Voxel,
      Reconstructor [] = some (⟨0, 0⟩, voxels.map some) ∧
      voxels.length = 16384 ∧
      ∀ voxel ∈ voxels, voxel.camera_projection = [] ∧ voxel.valid_camera_projection = [] := by
  obtain ⟨voxels, hall, hlen, hvox⟩ :=
    initializeVoxels_allAssigned [] ⟨0, 0⟩ m_height m_step (by decide) (by decide)
  have hamount : voxelsAmount m_height m_step = 16384 := by decide
  refine ⟨voxels, ?_, by rw [hlen, hamount], ?_⟩
  · unfold allAssigned at hall
    have hloop : planeSizeLoop [] default = some ⟨0, 0⟩ := rfl
    simp only [Reconstructor, hloop]
    rw [hall]
  · intro voxel hmem
    obtain ⟨x, y, z, _, hnew⟩ := hvox voxel hmem
    rw [hnew]
    exact ⟨rfl, rfl⟩

/-! ## The mask reads of `update` -/

/-- The reads of the camera loop started at camera `c0`: the mask of camera `c` is
read exactly when the flag of the voxel for `c` is not 0, and then at the stored
projection. -/
theorem mem_maskReads (voxel : Voxel) (rest : List Camera) (c0 c : Nat) (point : Point) :
    (c, point) ∈ maskReads voxel c0 rest ↔
      c0 ≤ c ∧ c < c0 + rest.length ∧ voxel.valid_camera_projection.getD c 0 ≠ 0 ∧
        point = voxel.camera_projection.getD c default := by
  induction rest generalizing c0 with
  | nil =>
    simp only [maskReads, List.not_mem_nil, List.length_nil, Nat.add_zero, false_iff]
    omega
  | cons cam rest ih =>
    rw [maskReads]
    by_cases hv : voxel.valid_camera_projection.getD c0 0 = 0
    · simp only [hv, ne_eq, not_true_eq_false, if_false, ih, List.length_cons]
      constructor
      · rintro ⟨h1, h2, h3, h4⟩
        exact ⟨by omega, by omega, h3, h4⟩
      · rintro ⟨h1, h2, h3, h4⟩
        have hne : c ≠ c0 := fun h => h3 (h ▸ hv)
        exact ⟨by omega, by omega, h3, h4⟩
    · simp only [hv, ne_eq, not_false_eq_true, if_true, List.mem_cons, Prod.mk.injEq, ih,
        List.length_cons]
      constructor
      · rintro (⟨h1, h2⟩ | ⟨h1, h2, h3, h4⟩)
        · subst h1
          exact ⟨le_refl _, by omega, hv, h2⟩
        · exact ⟨by omega, by omega, h3, h4⟩
      · rintro ⟨h1, h2, h3, h4⟩
        by_cases hc : c = c0
        · left
          subst hc
          exact ⟨rfl, h4⟩
        · right
          exact ⟨by omega, by omega, h3, h4⟩

/-- The counter of `update` counts the reads that find the value 255: the list
`maskReads` is the trace of the same loop. -/
theorem cameraCounter_eq_maskReads (voxel : Voxel) (pre rest : List Camera) (k : Nat) :
    cameraCounter voxel pre.length rest k
      = k + ((maskReads voxel pre.length rest).filter (fun read =>
          decide (((pre ++ rest)[read.1]?).map (fun cam => cam.getForegroundImage.at read.2)
            = some 255))).length := by
  induction rest generalizing pre k with
  | nil => simp [cameraCounter, maskReads]
  | cons cam rest ih =>
    have hih := fun k2 => ih (pre ++ [cam]) k2
    simp only [List.length_append, List.length_singleton, List.append_assoc,
      List.singleton_append] at hih
    have hcam : (pre ++ cam :: rest)[pre.length]? = some cam := by
      rw [List.getElem?_append_right (le_refl _)]
      simp
    rw [cameraCounter, maskReads]
    by_cases hv : voxel.valid_camera_projection.getD pre.length 0 = 0
    · simp only [hv, ne_eq, not_true_eq_false, if_false]
      exact hih k
    · by_cases hm : cam.getForegroundImage.at
          (voxel.camera_projection.getD pre.length default) = 255
      · simp only [hv, hm, ne_eq, not_false_eq_true, if_true, List.filter_cons, hcam,
          Option.map_some', decide_True, List.length_cons]
        rw [hih]
        omega
      · simp only [hv, hm, ne_eq, not_false_eq_true, if_true, if_false, List.filter_cons, hcam,
          Option.map_some', Option.some.injEq, decide_False, Bool.false_eq_true]
        exact hih k

/-- C17. For every voxel stored by `initialize` and every camera whose mask has the
common frame size `m_plane_size`, the camera loop of `update` reads the mask at the
voxel's projected pixel only when the projection is flagged valid, and the pixel then
satisfies `0 <= point.x < width` and `0 <= point.y < height`; the mask is not read
for a projection that is flagged invalid. -/
theorem update_mask_reads_in_bounds (cams : List Camera) (plane_size : Size)
    (H S amount : Nat) (voxel : Voxel)
    (hmem : some voxel ∈ initializeVoxels cams plane_size H S amount)
    (c : Nat) (cam : Camera) (hcam : cams[c]? = some cam)
    (hcols : (cam.getForegroundImage.cols : Int) = plane_size.width)
    (hrows : (cam.getForegroundImage.rows : Int) = plane_size.height) :
    (∀ point : Point, (c, point) ∈ maskReads voxel 0 cams →
        voxel.valid_camera_projection[c]? = some 1 ∧
        voxel.camera_projection[c]? = some point ∧
        pixelInBounds cam.getForegroundImage point) ∧
    (voxel.valid_camera_projection[c]? = some 0 →
        ∀ point : Point, (c, point) ∉ maskReads voxel 0 cams) := by
  obtain ⟨x, y, z, _, hnew⟩ := mem_initializeVoxels cams plane_size H S amount voxel hmem
  obtain ⟨_, _, _, _, _, htab⟩ := newVoxel_spec cams plane_size x y z
  obtain ⟨hp, hv⟩ := htab c cam hcam
  rw [← hnew] at hp hv
  constructor
  · intro point hread
    obtain ⟨_, _, hflag, hpoint⟩ := (mem_maskReads voxel cams 0 c point).1 hread
    rw [List.getD_eq_getElem?_getD, hv] at hflag
    rw [List.getD_eq_getElem?_getD, hp] at hpoint
    simp only [Option.getD_some] at hflag hpoint
    by_cases hin : inView plane_size (cam.projectOnView x y z) = true
    · rw [hv, hp, hpoint]
      simp only [hin, if_true, true_and]
      simp only [inView, decide_eq_true_eq, ge_iff_le] at hin
      unfold pixelInBounds
      rw [hcols, hrows]
      exact hin
    · simp only [hin, if_false, Bool.false_eq_true, ne_eq, not_true_eq_false] at hflag
  · intro hzero point hread
    obtain ⟨_, _, hflag, _⟩ := (mem_maskReads voxel cams 0 c point).1 hread
    rw [List.getD_eq_getElem?_getD, hzero] at hflag
    exact hflag rfl

/-- C17, at a concrete input: the grid of half-extent 1 and step 1 with one
644 x 486 camera whose mask has that size. -/
theorem update_mask_reads_in_bounds_witness :
    some cornerVoxel ∈ initializeVoxels [viewCamera] ⟨644, 486⟩ 1 1 4 ∧
    [viewCamera][0]? = some viewCamera ∧
    (viewCamera.getForegroundImage.cols : Int) = (⟨644, 486⟩ : Size).width ∧
    (viewCamera.getForegroundImage.rows : Int) = (⟨644, 486⟩ : Size).height ∧
    ((∀ point : Point, (0, point) ∈ maskReads cornerVoxel 0 [viewCamera] →
        cornerVoxel.valid_camera_projection[0]? = some 1 ∧
        cornerVoxel.camera_projection[0]? = some point ∧
        pixelInBounds viewCamera.getForegroundImage point) ∧
    (cornerVoxel.valid_camera_projection[0]? = some 0 →
        ∀ point : Point, (0, point) ∉ maskReads cornerVoxel 0 [viewCamera])) :=
  ⟨by decide, rfl, by decide, by decide,
    update_mask_reads_in_bounds [viewCamera] ⟨644, 486⟩ 1 1 4 cornerVoxel (by decide) 0
      viewCamera rfl (by decide) (by decide)⟩

/-- The reads of `update` for a voxel that is valid on cameras 0, 1 and 3 only. -/
theorem maskReads_skips_invalid :
    maskReads ⟨0, 0, 0, [⟨3, 4⟩, ⟨5, 6⟩, ⟨700, 4⟩, ⟨7, 8⟩], [1, 1, 0, 1]⟩ 0 fourCameras
      = [(0, ⟨3, 4⟩), (1, ⟨5, 6⟩), (3, ⟨7, 8⟩)] := by
  decide

/-! ## The clustering feature -/

/-- C15. The vector `m_groundCoordinates` of `cluster` has one entry per visible voxel,
entry `i` being `(x, y)` of the `i`-th visible voxel; it is the only input of the
k-means primitive that depends on the voxels; and two visible sets of the same size
whose voxels agree in `x` and `y` (they may differ in `z`) give the same
`m_groundCoordinates` and the same result of `cluster`. -/
theorem groundCoordinates_ignore_height (kmeans : KMeans) (visible visible2 : List Voxel)
    (hlen : visible.length = visible2.length)
    (hxy : ∀ (i : Nat) (voxel voxel2 : Voxel), visible[i]? = some voxel →
      visible2[i]? = some voxel2 → voxel.x = voxel2.x ∧ voxel.y = voxel2.y) :
    (groundCoordinates visible).length = visible.length ∧
    (∀ (i : Nat) (voxel : Voxel), visible[i]? = some voxel →
        (groundCoordinates visible)[i]? = some ⟨voxel.x, voxel.y⟩) ∧
    (∀ st, cluster kmeans visible = some st →
        st.m_groundCoordinates = groundCoordinates visible) ∧
    cluster kmeans visible
      = (kmeans (groundCoordinates visible) 4 10).bind (fun result =>
          (clusterLoop result.1 (List.range visible.length) (List.replicate 4 [])).map
            (fun clusters =>
              { m_groundCoordinates := groundCoordinates visible, m_clusterLabels := result.1,
                m_centers := result.2, m_clusters := clusters })) ∧
    groundCoordinates visible = groundCoordinates visible2 ∧
    cluster kmeans visible = cluster kmeans visible2 := by
  have hcall : ∀ vis : List Voxel, cluster kmeans vis
      = (kmeans (groundCoordinates vis) 4 10).bind (fun result =>
          (clusterLoop result.1 (List.range vis.length) (List.replicate 4 [])).map
            (fun clusters =>
              { m_groundCoordinates := groundCoordinates vis, m_clusterLabels := result.1,
                m_centers := result.2, m_clusters := clusters })) := by
    intro vis
    cases hk : kmeans (vis.map (fun voxel => Point2f.mk voxel.x voxel.y)) 4 10 with
    | none => simp only [cluster, groundCoordinates, hk, Option.none_bind]
    | some result =>
      obtain ⟨labels, centers⟩ := result
      cases hl : clusterLoop labels (List.range vis.length) (List.replicate 4 []) with
      | none => simp only [cluster, groundCoordinates, hk, hl, Option.some_bind, Option.map_none']
      | some clusters =>
        simp only [cluster, groundCoordinates, hk, hl, Option.some_bind, Option.map_some']
  have hground : groundCoordinates visible = groundCoordinates visible2 := by
    apply List.ext_getElem?
    intro i
    unfold groundCoordinates
    rw [List.getElem?_map, List.getElem?_map]
    by_cases hi : i < visible.length
    · have hi2 : i < visible2.length := by omega
      have h1 : visible[i]? = some visible[i] := List.getElem?_eq_getElem hi
      have h2 : visible2[i]? = some visible2[i] := List.getElem?_eq_getElem hi2
      obtain ⟨hx, hy⟩ := hxy i _ _ h1 h2
      rw [h1, h2]
      simp [hx, hy]
    · rw [List.getElem?_eq_none (by omega), List.getElem?_eq_none (by omega)]
  refine ⟨by simp [groundCoordinates], ?_, ?_, hcall visible, hground, ?_⟩
  · intro i voxel hv
    unfold groundCoordinates
    rw [List.getElem?_map, hv]
    rfl
  · intro st hst
    rw [hcall visible] at hst
    cases hk : kmeans (groundCoordinates visible) 4 10 with
    | none => rw [hk] at hst; cases hst
    | some result =>
      rw [hk] at hst
      simp only [Option.some_bind] at hst
      cases hl : clusterLoop result.1 (List.range visible.length) (List.replicate 4 []) with
      | none => rw [hl] at hst; cases hst
      | some clusters =>
        rw [hl] at hst
        simp only [Option.map_some', Option.some.injEq] at hst
        rw [← hst]
  · rw [hcall visible, hcall visible2, hground, hlen]

/-- C15, at a concrete input: two visible sets of one voxel each, at heights 0 and 128
over the same ground position. -/
theorem groundCoordinates_ignore_height_witness :
    [seenVoxel 256 (-128) 0].length = [seenVoxel 256 (-128) 128].length ∧
    (∀ (i : Nat) (voxel voxel2 : Voxel), [seenVoxel 256 (-128) 0][i]? = some voxel →
      [seenVoxel 256 (-128) 128][i]? = some voxel2 → voxel.x = voxel2.x ∧ voxel.y = voxel2.y) ∧
    ((groundCoordinates [seenVoxel 256 (-128) 0]).length = [seenVoxel 256 (-128) 0].length ∧
    (∀ (i : Nat) (voxel : Voxel), [seenVoxel 256 (-128) 0][i]? = some voxel →
        (groundCoordinates [seenVoxel 256 (-128) 0])[i]? = some ⟨voxel.x, voxel.y⟩) ∧
    (∀ st, cluster kmeansRoundRobin [seenVoxel 256 (-128) 0] = some st →
        st.m_groundCoordinates = groundCoordinates [seenVoxel 256 (-128) 0]) ∧
    cluster kmeansRoundRobin [seenVoxel 256 (-128) 0]
      = (kmeansRoundRobin (groundCoordinates [seenVoxel 256 (-128) 0]) 4 10).bind (fun result =>
          (clusterLoop result.1 (List.range [seenVoxel 256 (-128) 0].length)
              (List.replicate 4 [])).map
            (fun clusters =>
              { m_groundCoordinates := groundCoordinates [seenVoxel 256 (-128) 0],
                m_clusterLabels := result.1, m_centers := result.2,
                m_clusters := clusters })) ∧
    groundCoordinates [seenVoxel 256 (-128) 0] = groundCoordinates [seenVoxel 256 (-128) 128] ∧
    cluster kmeansRoundRobin [seenVoxel 256 (-128) 0]
      = cluster kmeansRoundRobin [seenVoxel 256 (-128) 128]) :=
  have hxy : ∀ (i : Nat) (voxel voxel2 : Voxel), [seenVoxel 256 (-128) 0][i]? = some voxel →
      [seenVoxel 256 (-128) 128][i]? = some voxel2 →
      voxel.x = voxel2.x ∧ voxel.y = voxel2.y := by
    intro i voxel voxel2 h1 h2
    cases i with
    | zero =>
      simp only [List.getElem?_cons_zero, Option.some.injEq] at h1 h2
      subst h1 h2
      exact ⟨rfl, rfl⟩
    | succ i => simp at h1
  ⟨rfl, hxy,
    groundCoordinates_ignore_height kmeansRoundRobin [seenVoxel 256 (-128) 0]
      [seenVoxel 256 (-128) 128] rfl hxy⟩

/-- The ground coordinates of two voxels at different heights. -/
theorem groundCoordinates_example :
    groundCoordinates [seenVoxel 256 (-128) 0, seenVoxel 0 384 1920]
      = [⟨256, -128⟩, ⟨0, 384⟩] := by
  decide

/-! ## The accesses of `buildOfflineColorModels` -/

/-- An element of a list after `modify` is an old element or the image of one. -/
theorem mem_modify {α : Type} (f : α → α) (n : Nat) (l : List α) (b : α)
    (hb : b ∈ List.modify f n l) : b ∈ l ∨ ∃ a ∈ l, b = f a := by
  obtain ⟨k, hk⟩ := List.mem_iff_getElem?.1 hb
  rw [List.getElem?_modify] at hk
  cases ha : l[k]? with
  | none => rw [ha] at hk; cases hk
  | some a =>
    rw [ha] at hk
    have hmem : a ∈ l := List.mem_iff_getElem?.2 ⟨k, ha⟩
    simp only [Option.map_eq_map, Option.map_some', Option.some.injEq] at hk
    by_cases hnk : n = k
    · rw [if_pos hnk] at hk
      exact Or.inr ⟨a, hmem, hk.symm⟩
    · rw [if_neg hnk] at hk
      exact Or.inl (hk ▸ hmem)

/-- Every index stored by the loop of `cluster` is one of the visited indices or was
in a list before. -/
theorem clusterLoop_members (labels : List Int) (idxs : List Nat) (clusters res : List (List Nat))
    (hres : clusterLoop labels idxs clusters = some res) :
    ∀ members ∈ res, ∀ i ∈ members, i ∈ idxs ∨ ∃ m0 ∈ clusters, i ∈ m0 := by
  induction idxs generalizing clusters with
  | nil =>
    simp only [clusterLoop, Option.some.injEq] at hres
    subst hres
    exact fun members hm i hi => Or.inr ⟨members, hm, hi⟩
  | cons i0 rest ih =>
    rw [clusterLoop] at hres
    cases hl : labels[i0]? with
    | none => rw [hl] at hres; cases hres
    | some label =>
      rw [hl] at hres
      simp only at hres
      by_cases hcond : 0 ≤ label ∧ label.toNat < clusters.length
      · rw [if_pos hcond] at hres
        intro members hm i hi
        rcases ih _ hres members hm i hi with h | ⟨m1, hm1, him1⟩
        · exact Or.inl (List.mem_cons_of_mem _ h)
        · rcases mem_modify _ _ _ _ hm1 with h | ⟨m0, hm0, heq⟩
          · exact Or.inr ⟨m1, h, him1⟩
          · rw [heq] at him1
            rcases List.mem_append.1 him1 with h | h
            · exact Or.inr ⟨m0, hm0, h⟩
            · rw [List.mem_singleton.1 h]
              exact Or.inl (List.mem_cons_self _ _)
      · rw [if_neg hcond] at hres
        cases hres

/-- After `cluster` every member index is below the number of visible voxels. -/
theorem cluster_members_lt (kmeans : KMeans) (visible : List Voxel) (st : Clustering)
    (hst : cluster kmeans visible = some st) :
    ∀ members ∈ st.m_clusters, ∀ i ∈ members, i < visible.length := by
  unfold cluster at hst
  simp only at hst
  cases hk : kmeans (visible.map (fun voxel => Point2f.mk voxel.x voxel.y)) 4 10 with
  | none => rw [hk] at hst; cases hst
  | some result =>
    obtain ⟨labels, centers⟩ := result
    rw [hk] at hst
    simp only at hst
    cases hl : clusterLoop labels (List.range visible.length) (List.replicate 4 []) with
    | none => rw [hl] at hst; cases hst
    | some clusters =>
      rw [hl] at hst
      simp only [Option.some.injEq] at hst
      subst hst
      intro members hm i hi
      rcases clusterLoop_members labels _ _ _ hl members hm i hi with h | ⟨m0, hm0, him0⟩
      · exact List.mem_range.1 h
      · rw [List.eq_of_mem_replicate hm0] at him0
        cases him0

/-- With a fit that never raises, the cluster loop runs to its end and writes one
artifact per cluster as soon as no access of the member loops leaves a vector. -/
theorem buildLoop_runs_to_end {μ : Type} (trainEM : TrainEM μ)
    (htotal : ∀ samples : Mat8, (trainEM samples).isSome = true)
    (current_frame : Image Vec3b) (visible : List Voxel) (camera : Nat)
    (clusters : List (List Nat)) (k0 : Nat) (written : List (Artifact μ))
    (hsamples : ∀ members ∈ clusters,
      (sampleMatrix current_frame visible camera members).isSome = true) :
    (buildLoop trainEM current_frame visible camera k0 clusters written).2 = true ∧
    (buildLoop trainEM current_frame visible camera k0 clusters written).1.length
      = written.length + clusters.length := by
  induction clusters generalizing k0 written with
  | nil => exact ⟨rfl, rfl⟩
  | cons members rest ih =>
    obtain ⟨colors, hcolors⟩ := Option.isSome_iff_exists.1
      (hsamples members (List.mem_cons_self _ _))
    obtain ⟨model, hmodel⟩ := Option.isSome_iff_exists.1 (htotal colors)
    obtain ⟨means, covs⟩ := model
    have hrec := ih (k0 + 1) (written ++ [{ k := k0, means := means, covs := covs }])
      (fun m hm => hsamples m (List.mem_cons_of_mem _ hm))
    simp only [buildLoop, hcolors, hmodel]
    refine ⟨hrec.1, ?_⟩
    rw [hrec.2, List.length_append, List.length_singleton, List.length_cons]
    omega

/-- One access that leaves a vector ends the cluster loop abnormally. -/
theorem buildLoop_out_of_range {μ : Type} (trainEM : TrainEM μ)
    (current_frame : Image Vec3b) (visible : List Voxel) (camera : Nat)
    (clusters : List (List Nat)) (k0 : Nat) (written : List (Artifact μ))
    (members : List Nat) (hmem : members ∈ clusters)
    (hnone : sampleMatrix current_frame visible camera members = none) :
    (buildLoop trainEM current_frame visible camera k0 clusters written).2 = false := by
  induction clusters generalizing k0 written with
  | nil => cases hmem
  | cons members0 rest ih =>
    cases hs : sampleMatrix current_frame visible camera members0 with
    | none => simp only [buildLoop, hs]
    | some colors =>
      cases ht : trainEM colors with
      | none => simp only [buildLoop, hs, ht]
      | some model =>
        obtain ⟨means, covs⟩ := model
        simp only [buildLoop, hs, ht]
        rcases List.mem_cons.1 hmem with h | h
        · rw [h, hs] at hnone
          cases hnone
        · exact ih _ _ h

/-- C19. For visible voxels taken from the grid of `initialize` and clusters built by
`cluster` on them, the accesses of `buildOfflineColorModels` at the reference camera
index 3 (`m_cameras[3]`, `valid_camera_projection[3]`, `camera_projection[3]`) are in
bounds if and only if at least four cameras are configured: with a fit that never
raises, the function runs to its end and writes one artifact per cluster exactly when
there are four cameras or more, and with fewer it ends at `m_cameras[3]`; index 3 is
in range of `m_cameras` and of the two tables of every visible voxel exactly then;
and every member index `m_clusters[k][i]` is below the size of `m_visible_voxels`, so
that no access of the member loops leaves a vector. -/
theorem buildOfflineColorModels_accesses {μ : Type} (cvtColor : Vec3b → Vec3b)
    (trainEM : TrainEM μ) (cams : List Camera) (plane_size : Size) (H S amount : Nat)
    (kmeans : KMeans) (visible : List Voxel) (st : Clustering)
    (hgrid : ∀ voxel ∈ visible, some voxel ∈ initializeVoxels cams plane_size H S amount)
    (hst : cluster kmeans visible = some st) :
    ((∀ samples : Mat8, (trainEM samples).isSome = true) →
      ((buildOfflineColorModels cvtColor trainEM cams visible st.m_clusters).2 = true
        ↔ 4 ≤ cams.length) ∧
      (4 ≤ cams.length →
        (buildOfflineColorModels cvtColor trainEM cams visible st.m_clusters).1.length
          = st.m_clusters.length)) ∧
    ((cams[3]?).isSome = true ↔ 4 ≤ cams.length) ∧
    (∀ voxel ∈ visible,
        (3 < voxel.valid_camera_projection.length ↔ 4 ≤ cams.length) ∧
        (3 < voxel.camera_projection.length ↔ 4 ≤ cams.length)) ∧
    (∀ members ∈ st.m_clusters, ∀ i ∈ members, i < visible.length) ∧
    (4 ≤ cams.length → ∀ (current_frame : Image Vec3b), ∀ members ∈ st.m_clusters,
        (sampleMatrix current_frame visible 3 members).isSome = true) ∧
    (cams.length < 4 →
        buildOfflineColorModels cvtColor trainEM cams visible st.m_clusters = ([], false)) := by
  have hlens : ∀ voxel ∈ visible, voxel.valid_camera_projection.length = cams.length ∧
      voxel.camera_projection.length = cams.length := by
    intro voxel hv
    obtain ⟨x, y, z, _, hnew⟩ := mem_initializeVoxels cams plane_size H S amount voxel
      (hgrid voxel hv)
    obtain ⟨_, _, _, hl1, hl2, _⟩ := newVoxel_spec cams plane_size x y z
    rw [hnew]
    exact ⟨hl2, hl1⟩
  have hmembers := cluster_members_lt kmeans visible st hst
  have hsamples : 4 ≤ cams.length → ∀ (current_frame : Image Vec3b),
      ∀ members ∈ st.m_clusters,
      (sampleMatrix current_frame visible 3 members).isSome = true := by
    intro h4 current_frame members hm
    have hin : ∀ member ∈ members, ∃ voxel, visible[member]? = some voxel ∧
        3 < voxel.valid_camera_projection.length ∧ 3 < voxel.camera_projection.length := by
      intro member hmem
      have hlt := hmembers members hm member hmem
      obtain ⟨h1, h2⟩ := hlens visible[member] (List.getElem_mem hlt)
      exact ⟨visible[member], List.getElem?_eq_getElem hlt, by omega, by omega⟩
    obtain ⟨points, hpoints, _⟩ := collectPoints_spec current_frame visible 3 members [] hin
    simp only [sampleMatrix, hpoints, Option.isSome_some]
  have hfew : cams.length < 4 →
      buildOfflineColorModels cvtColor trainEM cams visible st.m_clusters = ([], false) := by
    intro hlt
    have hnone : cams[3]? = none := List.getElem?_eq_none (by omega)
    simp only [buildOfflineColorModels, hnone]
  have hrun : (∀ samples : Mat8, (trainEM samples).isSome = true) → 4 ≤ cams.length →
      (buildOfflineColorModels cvtColor trainEM cams visible st.m_clusters).2 = true ∧
      (buildOfflineColorModels cvtColor trainEM cams visible st.m_clusters).1.length
        = st.m_clusters.length := by
    intro htotal h4
    have hcam : cams[3]? = some cams[3] := List.getElem?_eq_getElem (by omega)
    simp only [buildOfflineColorModels, hcam]
    have := buildLoop_runs_to_end trainEM htotal
      { rows := (cams[3]).getFrame.rows, cols := (cams[3]).getFrame.cols,
        px := fun point => cvtColor ((cams[3]).getFrame.at point) }
      visible 3 st.m_clusters 0 [] (hsamples h4 _)
    simpa using this
  refine ⟨?_, ?_, ?_, hmembers, hsamples, hfew⟩
  · intro htotal
    refine ⟨⟨?_, fun h4 => (hrun htotal h4).1⟩, fun h4 => (hrun htotal h4).2⟩
    intro hflag
    by_contra hlt
    rw [hfew (by omega)] at hflag
    cases hflag
  · constructor
    · intro h
      by_contra hlt
      rw [List.getElem?_eq_none (by omega)] at h
      cases h
    · intro h
      rw [List.getElem?_eq_getElem (by omega)]
      rfl
  · intro voxel hv
    obtain ⟨h1, h2⟩ := hlens voxel hv
    rw [h1, h2]
    exact ⟨Iff.rfl, Iff.rfl⟩

/-- C19, at a concrete input: four cameras, the grid of half-extent 1 and step 1, two
of its voxels visible, clustered with labels 0 and 1, and a fit that never raises. -/
theorem buildOfflineColorModels_accesses_witness :
    (∀ voxel ∈ [seenVoxel (-1) (-1) 0, seenVoxel 0 0 0],
      some voxel ∈ initializeVoxels fourCameras ⟨644, 486⟩ 1 1 4) ∧
    cluster kmeansRoundRobin [seenVoxel (-1) (-1) 0, seenVoxel 0 0 0]
      = some { m_groundCoordinates := [⟨-1, -1⟩, ⟨0, 0⟩], m_clusterLabels := [0, 1],
               m_centers := List.replicate 4 ⟨0, 0⟩, m_clusters := [[0], [1], [], []] } ∧
    (((∀ samples : Mat8, (trainAny samples).isSome = true) →
      ((buildOfflineColorModels id trainAny fourCameras [seenVoxel (-1) (-1) 0, seenVoxel 0 0 0]
          [[0], [1], [], []]).2 = true ↔ 4 ≤ fourCameras.length) ∧
      (4 ≤ fourCameras.length →
        (buildOfflineColorModels id trainAny fourCameras
          [seenVoxel (-1) (-1) 0, seenVoxel 0 0 0] [[0], [1], [], []]).1.length
          = ([[0], [1], [], []] : List (List Nat)).length)) ∧
    ((fourCameras[3]?).isSome = true ↔ 4 ≤ fourCameras.length) ∧
    (∀ voxel ∈ [seenVoxel (-1) (-1) 0, seenVoxel 0 0 0],
        (3 < voxel.valid_camera_projection.length ↔ 4 ≤ fourCameras.length) ∧
        (3 < voxel.camera_projection.length ↔ 4 ≤ fourCameras.length)) ∧
    (∀ members ∈ ([[0], [1], [], []] : List (List Nat)), ∀ i ∈ members,
        i < [seenVoxel (-1) (-1) 0, seenVoxel 0 0 0].length) ∧
    (4 ≤ fourCameras.length → ∀ (current_frame : Image Vec3b),
        ∀ members ∈ ([[0], [1], [], []] : List (List Nat)),
        (sampleMatrix current_frame [seenVoxel (-1) (-1) 0, seenVoxel 0 0 0] 3 members).isSome
          = true) ∧
    (fourCameras.length < 4 →
        buildOfflineColorModels id trainAny fourCameras [seenVoxel (-1) (-1) 0, seenVoxel 0 0 0]
          [[0], [1], [], []] = ([], false))) :=
  ⟨by decide, by decide,
    buildOfflineColorModels_accesses id trainAny fourCameras ⟨644, 486⟩ 1 1 4 kmeansRoundRobin
      [seenVoxel (-1) (-1) 0, seenVoxel 0 0 0]
      { m_groundCoordinates := [⟨-1, -1⟩, ⟨0, 0⟩], m_clusterLabels := [0, 1],
        m_centers := List.replicate 4 ⟨0, 0⟩, m_clusters := [[0], [1], [], []] }
      (by decide) (by decide)⟩

/-- The run of the concrete input above: with four cameras the function runs to its
end and writes the artifacts of the four clusters. -/
theorem buildOfflineColorModels_four_cameras :
    buildOfflineColorModels id trainAny fourCameras [seenVoxel (-1) (-1) 0, seenVoxel 0 0 0]
        [[0], [1], [], []]
      = ([{ k := 0, means := [[10], [20], [30]], covs := [] },
          { k := 1, means := [[10], [20], [30]], covs := [] },
          { k := 2, means := [], covs := [] }, { k := 3, means := [], covs := [] }], true) := by
  decide

/-- With three cameras `buildOfflineColorModels` ends at `m_cameras[3]` and writes
nothing. -/
theorem buildOfflineColorModels_three_cameras :
    buildOfflineColorModels id trainAny [viewCamera, viewCamera, viewCamera]
      [⟨0, 0, 0, [⟨3, 4⟩, ⟨3, 4⟩, ⟨3, 4⟩], [1, 1, 1]⟩] [[0]] = ([], false) := by
  decide

end Reconstructor

/-! ## The running statistics of `Gaussian::calculateGaussian` -/

namespace Gaussian

/-- The sum of the squared deviations from `a`, expanded. -/
theorem sumSquares_expand (xs : List ℚ) (a : ℚ) :
    sumSquares xs a = (xs.map (fun x => x ^ 2)).sum - 2 * a * xs.sum + xs.length * a ^ 2 := by
  unfold sumSquares
  induction xs with
  | nil => simp
  | cons x xs ih =>
    simp only [List.map_cons, List.sum_cons, List.length_cons, ih]
    push_cast
    ring

/-- One step of the recurrence keeps the two invariants: the mean times the number of
values is their sum, and the second statistic is the sum of the squared deviations
from the mean. -/
theorem welford_step (xs : List ℚ) (m s x : ℚ) (hm : m * (xs.length : ℚ) = xs.sum)
    (hs : s = sumSquares xs m) :
    (m + (x - m) / ((xs.length + 1 : Nat) : ℚ)) * ((xs ++ [x]).length : ℚ) = (xs ++ [x]).sum ∧
    s + (x - m) * (x - (m + (x - m) / ((xs.length + 1 : Nat) : ℚ)))
      = sumSquares (xs ++ [x]) (m + (x - m) / ((xs.length + 1 : Nat) : ℚ)) := by
  have hn : ((xs.length : ℚ) + 1) ≠ 0 := by positivity
  constructor
  · rw [List.length_append, List.length_singleton, List.sum_append, List.sum_singleton, ← hm]
    push_cast
    field_simp
    ring
  · rw [hs, sumSquares_expand, sumSquares_expand, List.map_append, List.sum_append,
      List.sum_append, List.length_append, ← hm]
    simp only [List.map_cons, List.map_nil, List.sum_cons, List.sum_nil, List.length_singleton]
    push_cast
    field_simp
    ring

/-- The values of one entry in a list of frames extended by one frame. -/
theorem samples_append_singleton (done : List MatQ) (frame : MatQ) (e : Nat) :
    samples (done ++ [frame]) e = samples done e ++ [frame e] := by
  simp [samples]

/-- Welford's recurrence keeps the two invariants for every entry. -/
theorem welfordLoop_invariant (e : Nat) (rest done : List MatQ) (running : MatQ × MatQ)
    (hmean : running.1 e * (done.length : ℚ) = (samples done e).sum)
    (hstd : running.2 e = sumSquares (samples done e) (running.1 e)) :
    (welfordLoop done.length rest running).1 e * ((done ++ rest).length : ℚ)
        = (samples (done ++ rest) e).sum ∧
    (welfordLoop done.length rest running).2 e
        = sumSquares (samples (done ++ rest) e) ((welfordLoop done.length rest running).1 e) := by
  induction rest generalizing done running with
  | nil => simpa [welfordLoop] using ⟨hmean, hstd⟩
  | cons frame rest ih =>
    have hlen : (samples done e).length = done.length := by simp [samples]
    have hstep := welford_step (samples done e) (running.1 e) (running.2 e) (frame e)
      (by rw [hlen]; exact hmean) hstd
    rw [hlen] at hstep
    have hrec := ih (done ++ [frame]) (welfordStep done.length running frame)
      (by
        rw [samples_append_singleton]
        have := hstep.1
        rw [List.length_append, List.length_singleton, hlen] at this
        simpa [welfordStep] using this)
      (by
        rw [samples_append_singleton]
        exact hstep.2)
    rw [List.length_append, List.length_singleton, List.append_assoc,
      List.singleton_append] at hrec
    rw [welfordLoop]
    exact hrec

/-- Welford's recurrence, run on plain values, gives the mean and the sum of the
squared deviations from it, hence the unbiased sample variance after division by
`n - 1`. -/
theorem welfordStatistics_spec (frames : List MatQ) (e : Nat) (hn : 1 ≤ frames.length) :
    (welfordStatistics frames).1 e = mean (samples frames e) ∧
    (welfordStatistics frames).2 e = sumSquares (samples frames e) (mean (samples frames e)) ∧
    (welfordStatistics frames).2 e / ((frames.length : ℚ) - 1)
      = sampleVariance (samples frames e) := by
  have hinv := welfordLoop_invariant e frames [] (zeroMat, zeroMat)
    (by simp [samples, zeroMat]) (by simp [samples, sumSquares, zeroMat])
  simp only [List.length_nil, List.nil_append] at hinv
  obtain ⟨hmean, hstd⟩ := hinv
  have hlen : (samples frames e).length = frames.length := by simp [samples]
  have hpos : (frames.length : ℚ) ≠ 0 := by
    have : 0 < frames.length := hn
    positivity
  have hmean2 : (welfordStatistics frames).1 e = mean (samples frames e) := by
    unfold welfordStatistics mean
    rw [hlen, eq_div_iff hpos]
    exact hmean
  have hstd2 : (welfordStatistics frames).2 e
      = sumSquares (samples frames e) (mean (samples frames e)) := by
    rw [← hmean2]
    exact hstd
  refine ⟨hmean2, hstd2, ?_⟩
  unfold sampleVariance
  rw [hstd2, hlen]

/-- The frame loop of the source keeps the mean right: the buffer of `running_mean`
times the number of frames read is their sum, and no later write touches it before
it is read, since `new_mean` and `new_std` keep their own buffers 2 and 3. -/
theorem frameLoop_mean (e : Nat) (rest done : List MatQ) (m : Mats)
    (hnm : m.new_mean = 2) (hns : m.new_std = 3)
    (hmean : m.buffers m.running_mean e * (done.length : ℚ) = (samples done e).sum) :
    (frameLoop done.length rest m).buffers (frameLoop done.length rest m).running_mean e
        * ((done ++ rest).length : ℚ)
      = (samples (done ++ rest) e).sum := by
  induction rest generalizing done m with
  | nil => simpa [frameLoop] using hmean
  | cons frame rest ih =>
    have hlen : (samples done e).length = done.length := by simp [samples]
    have hstep := (welford_step (samples done e) (m.buffers m.running_mean e)
      (sumSquares (samples done e) (m.buffers m.running_mean e)) (frame e)
      (by rw [hlen]; exact hmean) rfl).1
    have hrec := ih (done ++ [frame]) (frameStep done.length m frame)
      (by simp [frameStep, Mats.assign, hnm])
      (by simp [frameStep, Mats.assign, hns])
      (by
        rw [samples_append_singleton]
        rw [List.length_append, List.length_singleton, hlen] at hstep
        rw [List.length_append, List.length_singleton]
        simpa [frameStep, Mats.assign, hnm, hns] using hstep)
    rw [List.length_append, List.length_singleton, List.append_assoc,
      List.singleton_append] at hrec
    rw [frameLoop]
    exact hrec

/-- The matrix `running_mean` of `calculateGaussian` holds in every entry the mean
`(f_1 + ... + f_n) / n` of the frames. -/
theorem runningStatistics_mean (frames : List MatQ) (e : Nat) (hn : 1 ≤ frames.length) :
    (runningStatistics frames).1 e = mean (samples frames e) := by
  have hinv := frameLoop_mean e frames [] initialMats rfl rfl
    (by simp [samples, initialMats, zeroMat])
  simp only [List.length_nil, List.nil_append] at hinv
  have hlen : (samples frames e).length = frames.length := by simp [samples]
  have hpos : (frames.length : ℚ) ≠ 0 := by
    have : 0 < frames.length := hn
    positivity
  unfold runningStatistics mean
  rw [hlen, eq_div_iff hpos]
  exact hinv

/-- C18, evaluated at three frames whose entries have the values 1, 2 and 6. The mean
is right: `running_mean` is 3. The second statistic is not the sum of the squared
deviations from the mean, which is 14: from the second frame on `running_mean` and
`new_mean` refer to one buffer, so the update multiplies the deviation from the new
mean by itself and `running_std` is `(2 - 3/2)^2 + (6 - 3)^2 = 37/4`. The value whose
square root is returned is `37/8`, the unbiased sample variance is 7, and Welford's
recurrence on plain values gives 14. -/
theorem calculateGaussian_three_frames :
    (runningStatistics Reconstructor.threeFrames).1 0 = 3 ∧
    mean (samples Reconstructor.threeFrames 0) = 3 ∧
    (runningStatistics Reconstructor.threeFrames).2 0 = 37 / 4 ∧
    sumSquares (samples Reconstructor.threeFrames 0) 3 = 14 ∧
    (welfordStatistics Reconstructor.threeFrames).2 0 = 14 ∧
    (calculateGaussian Reconstructor.threeFrames).2 0 = 37 / 8 ∧
    sampleVariance (samples Reconstructor.threeFrames 0) = 7 := by
  refine ⟨?_, ?_, ?_, ?_, ?_, ?_, ?_⟩ <;>
    norm_num [calculateGaussian, runningStatistics, frameLoop, frameStep, Mats.assign,
      initialMats, zeroMat, divisor, Reconstructor.threeFrames, mean, samples, sumSquares,
      sampleVariance, welfordStatistics, welfordLoop, welfordStep]

/-- With a single frame the divisor is zero. -/
theorem divisor_single_frame (frame : MatQ) : divisor [frame] = 0 := by
  norm_num [divisor]

end Gaussian

end nl_uu_science_gmt
